import Mathlib

/-!
Verification development for the bidirected adjacency array
(`bidirected-adjacency-array`): a shallow embedding of the data model,
construction algorithm, accessors, comparison utility and the GFA1 text
adapter, together with proofs of the specified properties.

All machine integers of the source (the generic `IndexType`) are embedded
as `Nat`; the source's index newtypes (`NodeIndex`, `EdgeIndex`,
`DirectedNodeIndex`, `DirectedEdgeIndex`) all wrap such an integer, so the
embedding works with plain `Nat` values throughout.  `TaggedVec` is
embedded as `List`.  Indexing that would panic out of bounds in the source
is embedded with `getD` defaults; all uses below are in bounds for
well-formed input, which the construction invariants establish.
-/

/-- `DirectedNodeIndex::from_bidirected` from `src/index.rs`: encode a
bidirected node plus side flag, `2*n` for the forward side and `2*n + 1`
for the reverse side. -/
def DirectedNodeIndex.from_bidirected (bidirected : Nat) (forward : Bool) : Nat :=
  let base := bidirected * 2
  if forward then base else base + 1

/-- `DirectedNodeIndex::into_bidirected` from `src/index.rs`: project to
the owning bidirected node by integer division by 2. -/
def DirectedNodeIndex.into_bidirected (d : Nat) : Nat :=
  d / 2

/-- `DirectedNodeIndex::invert` from `src/index.rs`: flip the low bit. -/
def DirectedNodeIndex.invert (d : Nat) : Nat :=
  d ^^^ 1

/-- `DirectedNodeIndex::is_forward` from `src/index.rs`: parity test on
the low bit. -/
def DirectedNodeIndex.is_forward (d : Nat) : Bool :=
  d &&& 1 == 0

/-- `DirectedNodeIndex::is_reverse` from `src/index.rs`. -/
def DirectedNodeIndex.is_reverse (d : Nat) : Bool :=
  !(DirectedNodeIndex.is_forward d)

/-- Modelled from the spec: `DirectedEdgeIndex::invert`.  The repository's
`src/index.rs` generates its index types with an external macro and only
spells out `invert` for `DirectedNodeIndex`; the spec (§4.1) states that
`invert()` on directed node and edge indices alike flips the low bit
(XOR with 1). -/
def DirectedEdgeIndex.invert (d : Nat) : Nat :=
  d ^^^ 1

/-- `BidirectedEdge` from `src/graph.rs`: one input edge of the
construction. -/
structure BidirectedEdge (EdgeData : Type) where
  «from» : Nat
  /-- True if this edge originates from the forward side of the `from` node. -/
  from_forward : Bool
  «to» : Nat
  /-- True if this edge terminates at the forward side of the `to` node. -/
  to_forward : Bool
  data : EdgeData
deriving DecidableEq

/-- `EdgeDataKey` from `src/graph.rs`: per-directed-edge record of the
inverse directed edge and the optional back-reference to the payload
(`OptionalEdgeIndex` embedded as `Option Nat`). -/
structure EdgeDataKey where
  inverse : Nat
  data_index : Option Nat
deriving DecidableEq

/-- `BidirectedEdgeData` from `src/graph.rs`: payload-table entry holding
the payload and the two directed-edge positions claimed for the edge. -/
structure BidirectedEdgeData (EdgeData : Type) where
  forward : Nat
  reverse : Nat
  data : EdgeData
deriving DecidableEq

/-- `BidirectedAdjacencyArray` from `src/graph.rs`. -/
structure BidirectedAdjacencyArray (NodeData EdgeData : Type) where
  /-- Offset table indexed by directed node, with a final sentinel. -/
  node_array : List Nat
  /-- Flat successor table indexed by directed edge. -/
  edge_array : List Nat
  /-- Data associated with the bidirected nodes. -/
  node_data : List NodeData
  /-- Keys for finding the data associated with the directed edges. -/
  edge_data_keys : List EdgeDataKey
  /-- The actual edge data, indexed by bidirected edge. -/
  edge_data : List (BidirectedEdgeData EdgeData)
deriving DecidableEq

/-- Read a `TaggedVec<_, DirectedEdgeIndex>` entry (in bounds in all uses
below). -/
def getAt (l : List Nat) (i : Nat) : Nat :=
  l.getD i 0

/-- `node_array[i].increment()` from the counting pass of
`BidirectedAdjacencyArray::new`. -/
def incAt (l : List Nat) (i : Nat) : List Nat :=
  l.set i (getAt l i + 1)

/-- `node_array[i].decrement()` from the placement pass of
`BidirectedAdjacencyArray::new` (never underflows for well-formed
input). -/
def decAt (l : List Nat) (i : Nat) : List Nat :=
  l.set i (getAt l i - 1)

/-- The local `from_directed_forward` of `BidirectedAdjacencyArray::new`:
the directed origin of the forward directed edge derived from an input
edge. -/
def from_directed_forward (e : BidirectedEdge E) : Nat :=
  DirectedNodeIndex.from_bidirected e.«from» e.from_forward

/-- The local `to_directed_forward` of `BidirectedAdjacencyArray::new`:
the directed destination of the forward directed edge. -/
def to_directed_forward (e : BidirectedEdge E) : Nat :=
  DirectedNodeIndex.from_bidirected e.«to» e.to_forward

/-- The local `from_directed_reverse` of `BidirectedAdjacencyArray::new`:
the directed origin of the reverse-complement directed edge. -/
def from_directed_reverse (e : BidirectedEdge E) : Nat :=
  DirectedNodeIndex.invert (to_directed_forward e)

/-- The local `to_directed_reverse` of `BidirectedAdjacencyArray::new`:
the directed destination of the reverse-complement directed edge. -/
def to_directed_reverse (e : BidirectedEdge E) : Nat :=
  DirectedNodeIndex.invert (from_directed_forward e)

/-- The counting pass of `BidirectedAdjacencyArray::new`: count the
outgoing directed edges of each directed node. -/
def countPass (numNodes : Nat) (edges : List (BidirectedEdge E)) : List Nat :=
  edges.foldl
    (fun node_array edge =>
      incAt (incAt node_array (from_directed_forward edge)) (from_directed_reverse edge))
    (List.replicate (numNodes * 2 + 1) 0)

/-- The prefix-sum pass of `BidirectedAdjacencyArray::new`: replace each
counter by the running sum of all counters up to and including itself. -/
def prefixSum : List Nat → Nat → List Nat
  | [], _ => []
  | x :: xs, sum => (sum + x) :: prefixSum xs (sum + x)

/-- The final value of the source's prefix-sum fold, `directed_edge_count`
(equal to the last prefix-sum entry, as the source asserts). -/
def listSum (l : List Nat) : Nat :=
  l.foldl (· + ·) 0

/-- The mutable state of the placement pass of
`BidirectedAdjacencyArray::new`. -/
structure BuildState (EdgeData : Type) where
  node_array : List Nat
  edge_array : List Nat
  edge_data_keys : List EdgeDataKey
  edge_data : List (BidirectedEdgeData EdgeData)

/-- One iteration of the placement pass of `BidirectedAdjacencyArray::new`:
claim the last free slot of the `from` directed node's range for the
forward directed edge and of the inverted-`to` node's range for the
reverse directed edge, record destinations and key records, and append
the payload.  The payload's position `s.edge_data.length` equals the
edge's input position (the source asserts this equality). -/
def addEdge (s : BuildState EdgeData) (edge : BidirectedEdge EdgeData) :
    BuildState EdgeData :=
  let node_array := decAt s.node_array (from_directed_forward edge)
  let edge_index_forward := getAt node_array (from_directed_forward edge)
  let node_array := decAt node_array (from_directed_reverse edge)
  let edge_index_reverse := getAt node_array (from_directed_reverse edge)
  let edge_array := (s.edge_array.set edge_index_forward (to_directed_forward edge)).set
    edge_index_reverse (to_directed_reverse edge)
  let edge_data_keys :=
    (s.edge_data_keys.set edge_index_forward ⟨edge_index_reverse, some s.edge_data.length⟩).set
      edge_index_reverse ⟨edge_index_forward, none⟩
  ⟨node_array, edge_array, edge_data_keys,
    s.edge_data ++ [⟨edge_index_forward, edge_index_reverse, edge.data⟩]⟩

/-- The forward slot claimed by `addEdge`: the source's
`edge_index_forward`, read after the first decrement. -/
def slotForward (s : BuildState EdgeData) (edge : BidirectedEdge EdgeData) : Nat :=
  getAt (decAt s.node_array (from_directed_forward edge)) (from_directed_forward edge)

/-- The reverse slot claimed by `addEdge`: the source's
`edge_index_reverse`, read after both decrements. -/
def slotReverse (s : BuildState EdgeData) (edge : BidirectedEdge EdgeData) : Nat :=
  getAt (decAt (decAt s.node_array (from_directed_forward edge)) (from_directed_reverse edge))
    (from_directed_reverse edge)

/-- The state after the whole placement pass of
`BidirectedAdjacencyArray::new`: the prefix-summed offset table, the
zero-initialised successor and key tables of `directed_edge_count`
entries, folded over the edges in input order. -/
def buildResult (numNodes : Nat) (edges : List (BidirectedEdge EdgeData)) :
    BuildState EdgeData :=
  let counts := countPass numNodes edges
  edges.foldl addEdge
    ⟨prefixSum counts 0, List.replicate (listSum counts) 0,
      List.replicate (listSum counts) ⟨0, none⟩, []⟩

/-- `BidirectedAdjacencyArray::new` from `src/graph.rs`: counting pass,
prefix-sum pass, then the placement pass over the edges in input order. -/
def BidirectedAdjacencyArray.new (nodes : List NodeData)
    (edges : List (BidirectedEdge EdgeData)) :
    BidirectedAdjacencyArray NodeData EdgeData :=
  let s := buildResult nodes.length edges
  ⟨s.node_array, s.edge_array, nodes, s.edge_data_keys, s.edge_data⟩

/-- `BidirectedAdjacencyArray::node_count`. -/
def BidirectedAdjacencyArray.node_count (g : BidirectedAdjacencyArray N E) : Nat :=
  g.node_data.length

/-- `BidirectedAdjacencyArray::edge_count`. -/
def BidirectedAdjacencyArray.edge_count (g : BidirectedAdjacencyArray N E) : Nat :=
  g.edge_data.length

/-- `BidirectedAdjacencyArray::iter_nodes`: all valid bidirected node
indices in ascending order. -/
def BidirectedAdjacencyArray.iter_nodes (g : BidirectedAdjacencyArray N E) : List Nat :=
  List.range g.node_data.length

/-- `BidirectedAdjacencyArray::iter_edges`: all valid bidirected edge
indices in ascending order. -/
def BidirectedAdjacencyArray.iter_edges (g : BidirectedAdjacencyArray N E) : List Nat :=
  List.range g.edge_data.length

/-- The `DirectedEdge` view struct from `src/graph.rs`. -/
structure DirectedEdge where
  «from» : Nat
  «to» : Nat
  index : Nat
deriving DecidableEq

/-- `BidirectedAdjacencyArray::iter_outgoing_edges`: the successor-table
slice `[node_array[d], node_array[d+1])` of a directed node, with
positions (`take end`, then `skip start`, as the source iterates). -/
def BidirectedAdjacencyArray.iter_outgoing_edges (g : BidirectedAdjacencyArray N E)
    (node : Nat) : List DirectedEdge :=
  let start := getAt g.node_array node
  let stop := getAt g.node_array (node + 1)
  ((g.edge_array.enum.take stop).drop start).map fun p => ⟨node, p.2, p.1⟩

/-- The `DirectedEdgeDataView` struct from `src/graph.rs` (payload kept by
value in the embedding). -/
structure DirectedEdgeDataView (EdgeData : Type) where
  is_forward : Bool
  edge : Nat
  data : EdgeData
deriving DecidableEq

/-- `BidirectedAdjacencyArray::directed_edge_data`: resolve a directed
edge's payload through its own back-reference or, when absent, through
its inverse's.  The source's fatal `panic!` branch (both back-references
absent) is embedded as `none`. -/
def BidirectedAdjacencyArray.directed_edge_data [Inhabited E]
    (g : BidirectedAdjacencyArray N E) (directed_edge : Nat) :
    Option (DirectedEdgeDataView E) :=
  let key := g.edge_data_keys.getD directed_edge ⟨0, none⟩
  match key.data_index with
  | some edge => some ⟨true, edge, (g.edge_data.getD edge ⟨0, 0, default⟩).data⟩
  | none =>
    let inverse_key := g.edge_data_keys.getD key.inverse ⟨0, none⟩
    match inverse_key.data_index with
    | some edge => some ⟨false, edge, (g.edge_data.getD edge ⟨0, 0, default⟩).data⟩
    | none => none

/-- The body of the `filter_map` closure of
`BidirectedAdjacencyArray::iter_incident_edges`, factored out by name: a
directed edge whose endpoints coincide or are mutual inverses (a
self-loop variety) is reported only when it is the forward storage slot;
the source's unreachable `panic!` inside `directed_edge_data` is the
`none` case. -/
def incidentFilter [Inhabited E] (g : BidirectedAdjacencyArray N E)
    (directed_edge : DirectedEdge) : Option Nat :=
  match g.directed_edge_data directed_edge.index with
  | none => none
  | some directed_edge_data =>
    if directed_edge.«from» = directed_edge.«to» ∨
        directed_edge.«from» = DirectedNodeIndex.invert directed_edge.«to» then
      if directed_edge_data.is_forward then some directed_edge_data.edge else none
    else some directed_edge_data.edge

/-- `BidirectedAdjacencyArray::iter_incident_edges`: union of the
outgoing directed edges over both sides of a bidirected node, mapped to
bidirected edge identities, with the source's self-loop deduplication. -/
def BidirectedAdjacencyArray.iter_incident_edges [Inhabited E]
    (g : BidirectedAdjacencyArray N E) (node : Nat) : List Nat :=
  let forward_node := DirectedNodeIndex.from_bidirected node true
  let reverse_node := DirectedNodeIndex.from_bidirected node false
  ((g.iter_outgoing_edges forward_node) ++ (g.iter_outgoing_edges reverse_node)).filterMap
    (incidentFilter g)

/-- `BidirectedAdjacencyArray::node_data` (the accessor; named
`node_payload` here because the Lean structure field already uses the
source name). -/
def BidirectedAdjacencyArray.node_payload [Inhabited N]
    (g : BidirectedAdjacencyArray N E) (node : Nat) : N :=
  g.node_data.getD node default

/-- The `EdgeView` struct from `src/graph.rs`. -/
structure EdgeView (EdgeData : Type) where
  «from» : Nat
  «to» : Nat
  forward : Nat
  reverse : Nat
  data : EdgeData
deriving DecidableEq

/-- `BidirectedAdjacencyArray::edge` from `src/graph.rs`: reconstruct the
bidirected edge's directed endpoints from the destinations of its two
stored directed-edge positions, with the three-way case split of the
source. -/
def BidirectedAdjacencyArray.edge [Inhabited E] (g : BidirectedAdjacencyArray N E)
    (edge : Nat) : EdgeView E :=
  let bidirected_edge_data := g.edge_data.getD edge ⟨0, 0, default⟩
  let forward_to := getAt g.edge_array bidirected_edge_data.forward
  let reverse_to := getAt g.edge_array bidirected_edge_data.reverse
  if forward_to = reverse_to then
    ⟨DirectedNodeIndex.invert forward_to, forward_to,
      bidirected_edge_data.forward, bidirected_edge_data.reverse, bidirected_edge_data.data⟩
  else if DirectedNodeIndex.invert forward_to = reverse_to then
    ⟨forward_to, forward_to,
      bidirected_edge_data.forward, bidirected_edge_data.reverse, bidirected_edge_data.data⟩
  else
    ⟨DirectedNodeIndex.invert reverse_to, forward_to,
      bidirected_edge_data.forward, bidirected_edge_data.reverse, bidirected_edge_data.data⟩

/-- The source's local `forward_to` in `BidirectedAdjacencyArray::edge`:
the destination of the edge's forward storage slot in the successor
table. -/
def forwardDest [Inhabited E] (g : BidirectedAdjacencyArray N E) (edge : Nat) : Nat :=
  getAt g.edge_array (g.edge_data.getD edge ⟨0, 0, default⟩).forward

/-- The source's local `reverse_to` in `BidirectedAdjacencyArray::edge`:
the destination of the edge's reverse slot in the successor table. -/
def reverseDest [Inhabited E] (g : BidirectedAdjacencyArray N E) (edge : Nat) : Nat :=
  getAt g.edge_array (g.edge_data.getD edge ⟨0, 0, default⟩).reverse

/-- `GraphComparisonError` from `src/compare.rs`. -/
inductive GraphComparisonError where
  | NodeCountMismatch
  | EdgeCountMismatch
  | NodeDataMismatch (node : Nat)
  | EdgeDataMismatch (edge : Nat)
  | EdgeEndpointMismatch (edge : Nat)
deriving DecidableEq

/-- The per-node scan of `BidirectedAdjacencyArray::compare`, returning
the first mismatch. -/
def findNodeMismatch [DecidableEq N] [Inhabited N]
    (a b : BidirectedAdjacencyArray N E) : List Nat → Option GraphComparisonError
  | [] => none
  | i :: rest =>
    if a.node_payload i ≠ b.node_payload i then some (.NodeDataMismatch i)
    else findNodeMismatch a b rest

/-- The per-edge scan of `BidirectedAdjacencyArray::compare`: payload
check before endpoint check, first mismatch wins. -/
def findEdgeMismatch [DecidableEq E] [Inhabited E]
    (a b : BidirectedAdjacencyArray N E) : List Nat → Option GraphComparisonError
  | [] => none
  | i :: rest =>
    if (a.edge i).data ≠ (b.edge i).data then some (.EdgeDataMismatch i)
    else if (a.edge i).«from» ≠ (b.edge i).«from» ∨ (a.edge i).«to» ≠ (b.edge i).«to» then
      some (.EdgeEndpointMismatch i)
    else findEdgeMismatch a b rest

/-- `BidirectedAdjacencyArray::compare` from `src/compare.rs`: node
count, edge count, per-node payload scan, then per-edge payload and
endpoint scan, in that fixed order with early exit. -/
def BidirectedAdjacencyArray.compare [DecidableEq N] [DecidableEq E] [Inhabited N] [Inhabited E]
    (a b : BidirectedAdjacencyArray N E) : Except GraphComparisonError Unit :=
  if a.node_count ≠ b.node_count then .error .NodeCountMismatch
  else if a.edge_count ≠ b.edge_count then .error .EdgeCountMismatch
  else
    match findNodeMismatch a b a.iter_nodes with
    | some e => .error e
    | none =>
      match findEdgeMismatch a b a.iter_edges with
      | some e => .error e
      | none => .ok ()

/-! ### Specification-side quantities for the construction -/

/-- Well-formed input: every edge's `from` and `to` are indices of nodes
in the node sequence. -/
def WellFormedInput (nodes : List N) (edges : List (BidirectedEdge E)) : Prop :=
  ∀ e ∈ edges, e.«from» < nodes.length ∧ e.«to» < nodes.length

instance decWellFormedInput (nodes : List N) (edges : List (BidirectedEdge E)) :
    Decidable (WellFormedInput nodes edges) :=
  inferInstanceAs (Decidable (∀ e ∈ edges, e.«from» < nodes.length ∧ e.«to» < nodes.length))

/-- The out-degree of directed node `d`: the number of directed edges
derived from the input edge list whose origin is `d`. -/
def outDegree (edges : List (BidirectedEdge E)) (d : Nat) : Nat :=
  edges.countP (fun e => from_directed_forward e == d) +
    edges.countP (fun e => from_directed_reverse e == d)

/-- The start offset of directed node `d`'s successor range: the total
out-degree of all smaller directed nodes. -/
def offsetAt (edges : List (BidirectedEdge E)) (d : Nat) : Nat :=
  ∑ j ∈ Finset.range d, outDegree edges j

/-- Invariant of one placed edge during the placement pass: its two
claimed slots sit inside their directed nodes' offset ranges (at or above
the node's current counter), are distinct, and the successor and key
tables hold the values written for them. -/
structure EntryInv (allEdges : List (BidirectedEdge E)) (s : BuildState E) (j : Nat)
    (ej : BidirectedEdge E) (ed : BidirectedEdgeData E) : Prop where
  data_eq : ed.data = ej.data
  fwd_lb : getAt s.node_array (from_directed_forward ej) ≤ ed.forward
  fwd_ub : ed.forward < offsetAt allEdges (from_directed_forward ej + 1)
  rev_lb : getAt s.node_array (from_directed_reverse ej) ≤ ed.reverse
  rev_ub : ed.reverse < offsetAt allEdges (from_directed_reverse ej + 1)
  fwd_ne_rev : ed.forward ≠ ed.reverse
  ea_fwd : s.edge_array[ed.forward]? = some (to_directed_forward ej)
  ea_rev : s.edge_array[ed.reverse]? = some (to_directed_reverse ej)
  key_fwd : s.edge_data_keys[ed.forward]? = some ⟨ed.reverse, some j⟩
  key_rev : s.edge_data_keys[ed.reverse]? = some ⟨ed.forward, none⟩

/-- Invariant of the placement pass after the edges `done` have been
placed and `todo` remain: table lengths, the counter of every directed
node (its final offset plus the out-degree still to be placed at it), and
the per-entry facts for every placed edge. -/
structure PlaceInv (n : Nat) (allEdges done todo : List (BidirectedEdge E))
    (s : BuildState E) : Prop where
  split_eq : allEdges = done ++ todo
  na_len : s.node_array.length = 2 * n + 1
  ea_len : s.edge_array.length = offsetAt allEdges (2 * n + 1)
  keys_len : s.edge_data_keys.length = offsetAt allEdges (2 * n + 1)
  cur_eq : ∀ d, d < 2 * n + 1 →
    getAt s.node_array d = offsetAt allEdges d + outDegree todo d
  data_len : s.edge_data.length = done.length
  entry : ∀ j ej ed, done[j]? = some ej → s.edge_data[j]? = some ed →
    EntryInv allEdges s j ej ed
  covered : ∀ d, d < 2 * n + 1 → ∀ i, getAt s.node_array d ≤ i →
    i < offsetAt allEdges (d + 1) →
    ∃ (j : Nat) (ej : BidirectedEdge E) (ed : BidirectedEdgeData E),
      done[j]? = some ej ∧ s.edge_data[j]? = some ed ∧
      ((ed.forward = i ∧ from_directed_forward ej = d) ∨
        (ed.reverse = i ∧ from_directed_reverse ej = d))

/-! ### The GFA1 text adapter (`src/io/gfa1.rs`)

Rust strings are embedded as `List Char`; the string operations the
adapter uses (`split('\t')`, `trim`, `trim_end_matches('M')`,
`str::parse::<u16>`, `BufRead::lines`, decimal `Display`) are embedded
below.  `trim` uses `Char.isWhitespace` (space, tab, CR, LF), the ASCII
fragment of Rust's Unicode definition. -/

/-- Rust `str::split(c)`: split at every occurrence of `c`; the empty
string yields one empty piece. -/
def splitOnChar (c : Char) : List Char → List (List Char)
  | [] => [[]]
  | x :: xs =>
    match splitOnChar c xs with
    | [] => [[x]]
    | r :: rs => if x = c then [] :: r :: rs else (x :: r) :: rs

/-- Strip one trailing carriage return, as Rust `BufRead::lines` does per
line. -/
def stripCR (l : List Char) : List Char :=
  if l.getLast? = some '\r' then l.dropLast else l

/-- Rust `BufRead::lines`: split on `'\n'`, with no trailing empty line
for input ending in a newline, stripping one `'\r'` from each line end. -/
def rustLines (l : List Char) : List (List Char) :=
  let parts := splitOnChar '\n' l
  (if parts.getLast? = some [] then parts.dropLast else parts).map stripCR

/-- Rust `str::trim`: remove leading and trailing whitespace. -/
def rustTrim (l : List Char) : List Char :=
  ((l.dropWhile Char.isWhitespace).reverse.dropWhile Char.isWhitespace).reverse

/-- Rust `str::trim_end_matches(c)`: remove every trailing occurrence of
`c`. -/
def trimEndMatches (c : Char) (l : List Char) : List Char :=
  (l.reverse.dropWhile (· = c)).reverse

/-- Rust `str::parse::<u16>`: an optional leading `+`, then one or more
decimal digits, value at most `u16::MAX`; anything else is an error
(embedded as `none`). -/
def parseU16 (l : List Char) : Option Nat :=
  let digits := if l.head? = some '+' then l.tail else l
  if digits = [] then none
  else if digits.all Char.isDigit then
    let value := digits.foldl (fun acc c => acc * 10 + (c.toNat - '0'.toNat)) 0
    if value < 65536 then some value else none
  else none

/-- One decimal digit as a character. -/
def digitChar (n : Nat) : Char :=
  Char.ofNat ('0'.toNat + n)

/-- Fuel-indexed decimal printing (structural recursion so that concrete
evaluation reduces). -/
def toDecimalAux : Nat → Nat → List Char
  | 0, _ => []
  | fuel + 1, n =>
    if n < 10 then [digitChar n]
    else toDecimalAux fuel (n / 10) ++ [digitChar (n % 10)]

/-- Rust's decimal `Display` of an unsigned integer. -/
def toDecimal (n : Nat) : List Char :=
  toDecimalAux (n + 1) n

/-- `PlainGfaNodeData` from `src/io/gfa1.rs`. -/
structure PlainGfaNodeData where
  name : List Char
  sequence : List Char
deriving DecidableEq, Inhabited

/-- `PlainGfaEdgeData` from `src/io/gfa1.rs` (`overlap` is a `u16` in the
source; reading enforces the bound, writing assumes it). -/
structure PlainGfaEdgeData where
  overlap : Nat
deriving DecidableEq, Inhabited

/-- `GfaReadError` from `src/io/gfa1.rs` (`IoError` carries no payload in
the embedding and is never produced by the pure reader). -/
inductive GfaReadError where
  | IoError
  | WronglyPositionedHeader
  | MissingSequenceNameInSLine
  | LLineTooShort
  | UnknownNodeName (name : List Char)
  | UnknownGfaNodeSign (sign : List Char)
deriving DecidableEq

/-- The mutable state of `read_gfa1`'s line loop. -/
structure GfaReaderState where
  /-- The `HashMap` of names, embedded as an association list whose most
  recent insertion stands first (an insert shadows older entries, as
  `HashMap::insert` does). -/
  node_name_to_node : List (List Char × Nat)
  nodes : List PlainGfaNodeData
  edges : List (BidirectedEdge PlainGfaEdgeData)
  is_header_allowed : Bool
deriving DecidableEq

/-- `HashMap` lookup for the name table: the most recent insertion
wins. -/
def lookupName : List (List Char × Nat) → List Char → Option Nat
  | [], _ => none
  | (k, v) :: rest, name => if k = name then some v else lookupName rest name

/-- The empty reader state at the start of `read_gfa1`. -/
def gfaStartState : GfaReaderState :=
  ⟨[], [], [], true⟩

/-- One iteration of `read_gfa1`'s line loop: trim the line, split on
tabs, and dispatch on the first field, with the source's error and
default behaviour. -/
def processLine (st : GfaReaderState) (line : List Char) :
    Except GfaReadError GfaReaderState :=
  let fields := splitOnChar '\t' (rustTrim line)
  match fields.head? with
  | none => Except.ok { st with is_header_allowed := false }
  | some f0 =>
    if f0 = ['H'] then
      if st.is_header_allowed then
        Except.ok { st with is_header_allowed := false }
      else Except.error .WronglyPositionedHeader
    else if f0 = ['S'] then
      match fields.get? 1 with
      | none => Except.error .MissingSequenceNameInSLine
      | some name =>
        let sequence := (fields.get? 2).getD []
        Except.ok
          { st with
            node_name_to_node := (name, st.nodes.length) :: st.node_name_to_node
            nodes := st.nodes ++ [⟨name, sequence⟩]
            is_header_allowed := false }
    else if f0 = ['L'] then
      match fields.get? 1 with
      | none => Except.error .LLineTooShort
      | some from_name =>
        match lookupName st.node_name_to_node from_name with
        | none => Except.error (.UnknownNodeName from_name)
        | some fromNode =>
          match fields.get? 2 with
          | none => Except.error .LLineTooShort
          | some from_sign =>
            let from_forward? : Except GfaReadError Bool :=
              if from_sign = ['+'] then .ok true
              else if from_sign = ['-'] then .ok false
              else .error (.UnknownGfaNodeSign from_sign)
            match from_forward? with
            | .error e => .error e
            | .ok from_forward =>
              match fields.get? 3 with
              | none => Except.error .LLineTooShort
              | some to_name =>
                match lookupName st.node_name_to_node to_name with
                | none => Except.error (.UnknownNodeName to_name)
                | some toNode =>
                  match fields.get? 4 with
                  | none => Except.error .LLineTooShort
                  | some to_sign =>
                    let to_forward? : Except GfaReadError Bool :=
                      if to_sign = ['+'] then .ok true
                      else if to_sign = ['-'] then .ok false
                      else .error (.UnknownGfaNodeSign to_sign)
                    match to_forward? with
                    | .error e => .error e
                    | .ok to_forward =>
                      let overlap_str := (fields.get? 5).getD ('0' :: ['M'])
                      let overlap :=
                        (parseU16 (trimEndMatches 'M' overlap_str)).getD 0
                      Except.ok
                        { st with
                          edges := st.edges ++
                            [⟨fromNode, from_forward, toNode, to_forward, ⟨overlap⟩⟩]
                          is_header_allowed := false }
    else Except.ok { st with is_header_allowed := false }

/-- `read_gfa1`'s line loop: any parse error aborts the read of the
remaining input. -/
def runLines : GfaReaderState → List (List Char) → Except GfaReadError GfaReaderState
  | st, [] => Except.ok st
  | st, l :: ls =>
    match processLine st l with
    | .ok st' => runLines st' ls
    | .error e => .error e

/-- `read_gfa1` from `src/io/gfa1.rs`: process every line, then build the
graph from the collected nodes and edges. -/
def read_gfa1 (text : List Char) :
    Except GfaReadError (BidirectedAdjacencyArray PlainGfaNodeData PlainGfaEdgeData) :=
  match runLines gfaStartState (rustLines text) with
  | .ok st => .ok (BidirectedAdjacencyArray.new st.nodes st.edges)
  | .error e => .error e

/-- The header line written by `write_gfa1`. -/
def gfaHeaderLine : List Char :=
  "H\tVN:Z:1.0".toList

/-- The `S` line written by `write_gfa1` for one node. -/
def sLineOf (nd : PlainGfaNodeData) : List Char :=
  'S' :: '\t' :: (nd.name ++ '\t' :: nd.sequence)

/-- The orientation symbol written by `write_gfa1`. -/
def signOf (forward : Bool) : List Char :=
  if forward then ['+'] else ['-']

/-- The `L` line written by `write_gfa1` for one edge, from the edge's
view: names of the bidirected endpoints, orientation symbols from the
directed endpoints' sides, and the overlap rendered as `<n>M`. -/
def lLineOf (g : BidirectedAdjacencyArray PlainGfaNodeData PlainGfaEdgeData)
    (e : Nat) : List Char :=
  let edge_data := g.edge e
  let from_node_name := (g.node_payload (DirectedNodeIndex.into_bidirected edge_data.«from»)).name
  let to_node_name := (g.node_payload (DirectedNodeIndex.into_bidirected edge_data.«to»)).name
  let from_node_sign := signOf (DirectedNodeIndex.is_forward edge_data.«from»)
  let to_node_sign := signOf (DirectedNodeIndex.is_forward edge_data.«to»)
  let overlap := edge_data.data.overlap
  'L' :: '\t' :: (from_node_name ++ '\t' :: (from_node_sign ++ '\t' ::
    (to_node_name ++ '\t' :: (to_node_sign ++ '\t' :: (toDecimal overlap ++ ['M'])))))

/-- Join lines, terminating each with a newline, as repeated `writeln!`
does. -/
def unlines (ls : List (List Char)) : List Char :=
  (ls.map (· ++ ['\n'])).flatten

/-- `write_gfa1` from `src/io/gfa1.rs` (at the `PlainGfa*` payload types,
the instantiation the comparison needs): header, one `S` line per node in
index order, then one `L` line per edge in index order. -/
def write_gfa1 (g : BidirectedAdjacencyArray PlainGfaNodeData PlainGfaEdgeData) :
    List Char :=
  unlines (gfaHeaderLine ::
    (g.iter_nodes.map fun node => sLineOf (g.node_payload node)) ++
      g.iter_edges.map (lLineOf g))

/-- The hypothesis of the undefined-name scenario: the `L` line's fields
reach a name lookup that fails, the fields before it being well-formed
(the `from` name is looked up before the `from` orientation is
checked). -/
def lLineUndefinedName (st : GfaReaderState) (fields : List (List Char))
    (name : List Char) : Prop :=
  (fields.get? 1 = some name ∧ lookupName st.node_name_to_node name = none) ∨
    (∃ from_name fromNode,
      fields.get? 1 = some from_name ∧
      lookupName st.node_name_to_node from_name = some fromNode ∧
      (fields.get? 2 = some ['+'] ∨ fields.get? 2 = some ['-']) ∧
      fields.get? 3 = some name ∧ lookupName st.node_name_to_node name = none)

/-- Whether a string's last character is whitespace (the strings written
by the adapter must not end this way for `trim` to be the identity on
their lines). -/
def lastIsWhitespace (s : List Char) : Bool :=
  ((s.getLast?).map Char.isWhitespace).getD false

deriving instance DecidableEq for Except

/-- Join fields with tab separators (the shape of the lines `write_gfa1`
produces). -/
def joinTabs : List (List Char) → List Char
  | [] => []
  | [f] => f
  | f :: rest => f ++ '\t' :: joinTabs rest

/-- The name table built by processing a list of `S` lines in order,
starting at node index `base`: each insertion is prepended, shadowing
older entries. -/
def addNames (base : Nat) : List PlainGfaNodeData → List (List Char × Nat) →
    List (List Char × Nat)
  | [], m => m
  | nd :: rest, m => addNames (base + 1) rest ((nd.name, base) :: m)

/-- A node payload that the text format can carry faithfully: no tab or
newline in name or sequence, the sequence does not end in whitespace, and
a node with empty sequence has a nonempty name not ending in whitespace
(otherwise `trim` on readback truncates the line). -/
def goodNode (nd : PlainGfaNodeData) : Prop :=
  '\t' ∉ nd.name ∧ '\n' ∉ nd.name ∧ '\t' ∉ nd.sequence ∧ '\n' ∉ nd.sequence ∧
  lastIsWhitespace nd.sequence = false ∧
  (nd.sequence = [] → nd.name ≠ [] ∧ lastIsWhitespace nd.name = false)

instance decGoodNode (nd : PlainGfaNodeData) : Decidable (goodNode nd) :=
  inferInstanceAs (Decidable
    ('\t' ∉ nd.name ∧ '\n' ∉ nd.name ∧ '\t' ∉ nd.sequence ∧ '\n' ∉ nd.sequence ∧
      lastIsWhitespace nd.sequence = false ∧
      (nd.sequence = [] → nd.name ≠ [] ∧ lastIsWhitespace nd.name = false)))

/-- The `L` line of an input edge, written with the input's own fields
(the normal form `lLineOf` takes on a constructed graph). -/
def lLineText (nodesRef : List PlainGfaNodeData)
    (ej : BidirectedEdge PlainGfaEdgeData) : List Char :=
  'L' :: '\t' :: ((nodesRef.getD ej.«from» default).name ++ '\t' ::
    (signOf ej.from_forward ++ '\t' :: ((nodesRef.getD ej.«to» default).name ++ '\t' ::
      (signOf ej.to_forward ++ '\t' :: (toDecimal ej.data.overlap ++ ['M'])))))

example :
    (@BidirectedAdjacencyArray.new Unit Unit [(), (), ()]
      [⟨0, true, 1, true, ()⟩, ⟨1, true, 2, true, ()⟩]).node_array =
      [0, 1, 1, 2, 3, 3, 4] := by decide

example :
    ((@BidirectedAdjacencyArray.new Unit Unit [(), (), ()]
      [⟨0, true, 1, true, ()⟩, ⟨1, true, 2, true, ()⟩]).iter_outgoing_edges 0).map
        DirectedEdge.«to» = [2] := by decide

example :
    ((@BidirectedAdjacencyArray.new Unit Unit [(), (), ()]
      [⟨0, true, 1, true, ()⟩, ⟨1, true, 2, true, ()⟩]).iter_outgoing_edges 3).map
        DirectedEdge.«to» = [1] := by decide

/-! ### Arithmetic of the directed-index encoding -/

theorem from_bidirected_eq (n : Nat) (b : Bool) :
    DirectedNodeIndex.from_bidirected n b = 2 * n + (if b then 0 else 1) := by
  cases b <;> simp [DirectedNodeIndex.from_bidirected, Nat.mul_comm]

theorem two_mul_xor_one (n : Nat) : (2 * n) ^^^ 1 = 2 * n + 1 := by
  have h := Nat.xor_bit false n true 0
  simpa [Nat.bit] using h

theorem two_mul_add_one_xor_one (n : Nat) : (2 * n + 1) ^^^ 1 = 2 * n := by
  have h := Nat.xor_bit true n true 0
  simpa [Nat.bit] using h

theorem invert_from_bidirected (n : Nat) (b : Bool) :
    DirectedNodeIndex.invert (DirectedNodeIndex.from_bidirected n b) =
      DirectedNodeIndex.from_bidirected n (!b) := by
  cases b <;>
    simp [DirectedNodeIndex.invert, from_bidirected_eq, two_mul_xor_one,
      two_mul_add_one_xor_one]

theorem invert_invert (d : Nat) :
    DirectedNodeIndex.invert (DirectedNodeIndex.invert d) = d :=
  Nat.xor_cancel_right 1 d

theorem invert_ne (d : Nat) : DirectedNodeIndex.invert d ≠ d := by
  intro h
  have h' : d ^^^ 1 = d ^^^ 0 := by simpa [DirectedNodeIndex.invert] using h
  simpa using Nat.xor_right_inj.mp h'

theorem invert_inj {d d' : Nat} (h : DirectedNodeIndex.invert d = DirectedNodeIndex.invert d') :
    d = d' := by
  have := congrArg DirectedNodeIndex.invert h
  rwa [invert_invert, invert_invert] at this

theorem into_bidirected_from_bidirected (n : Nat) (b : Bool) :
    DirectedNodeIndex.into_bidirected (DirectedNodeIndex.from_bidirected n b) = n := by
  cases b <;> simp [DirectedNodeIndex.into_bidirected, from_bidirected_eq] <;> omega

theorem is_forward_from_bidirected (n : Nat) (b : Bool) :
    DirectedNodeIndex.is_forward (DirectedNodeIndex.from_bidirected n b) = b := by
  cases b <;>
    simp [DirectedNodeIndex.is_forward, from_bidirected_eq, Nat.and_one_is_mod,
      Nat.add_mul_mod_self_left, Nat.mul_add_mod]

theorem from_bidirected_inj {n n' : Nat} {b b' : Bool}
    (h : DirectedNodeIndex.from_bidirected n b = DirectedNodeIndex.from_bidirected n' b') :
    n = n' ∧ b = b' := by
  rw [from_bidirected_eq, from_bidirected_eq] at h
  cases b <;> cases b' <;> simp_all <;> omega

theorem from_bidirected_decompose (d : Nat) :
    DirectedNodeIndex.from_bidirected (DirectedNodeIndex.into_bidirected d)
      (DirectedNodeIndex.is_forward d) = d := by
  rw [from_bidirected_eq]
  simp only [DirectedNodeIndex.into_bidirected, DirectedNodeIndex.is_forward,
    Nat.and_one_is_mod]
  by_cases h : d % 2 = 0
  · simp only [h, beq_self_eq_true, if_true]; omega
  · have h1 : d % 2 = 1 := by omega
    simp only [h1]
    norm_num
    omega

theorem from_bidirected_lt (n len : Nat) (b : Bool) (h : n < len) :
    DirectedNodeIndex.from_bidirected n b < 2 * len := by
  rw [from_bidirected_eq]; cases b <;> simp <;> omega

theorem into_bidirected_invert (d : Nat) :
    DirectedNodeIndex.into_bidirected (DirectedNodeIndex.invert d) =
      DirectedNodeIndex.into_bidirected d := by
  conv_lhs => rw [← from_bidirected_decompose d]
  rw [invert_from_bidirected, into_bidirected_from_bidirected]

theorem is_forward_invert (d : Nat) :
    DirectedNodeIndex.is_forward (DirectedNodeIndex.invert d) =
      !(DirectedNodeIndex.is_forward d) := by
  conv_lhs => rw [← from_bidirected_decompose d]
  rw [invert_from_bidirected, is_forward_from_bidirected]

/-! ### Auxiliary list lemmas for the tables -/

theorem getAt_set_self {l : List Nat} {i : Nat} (h : i < l.length) (a : Nat) :
    getAt (l.set i a) i = a := by
  simp [getAt, List.getD_eq_getElem?_getD, List.getElem?_set_eq_of_lt a h]

theorem getAt_set_ne {l : List Nat} {i j : Nat} (h : i ≠ j) (a : Nat) :
    getAt (l.set i a) j = getAt l j := by
  simp [getAt, List.getD_eq_getElem?_getD, List.getElem?_set_ne h]

theorem getAt_incAt_self {l : List Nat} {i : Nat} (h : i < l.length) :
    getAt (incAt l i) i = getAt l i + 1 :=
  getAt_set_self h _

theorem getAt_incAt_ne {l : List Nat} {i j : Nat} (h : i ≠ j) :
    getAt (incAt l i) j = getAt l j :=
  getAt_set_ne h _

theorem getAt_decAt_self {l : List Nat} {i : Nat} (h : i < l.length) :
    getAt (decAt l i) i = getAt l i - 1 :=
  getAt_set_self h _

theorem getAt_decAt_ne {l : List Nat} {i j : Nat} (h : i ≠ j) :
    getAt (decAt l i) j = getAt l j :=
  getAt_set_ne h _

theorem length_incAt (l : List Nat) (i : Nat) : (incAt l i).length = l.length :=
  List.length_set l i _

theorem getAt_incAt (l : List Nat) (i d : Nat) (h : i < l.length) :
    getAt (incAt l i) d = getAt l d + if i = d then 1 else 0 := by
  by_cases hd : i = d
  · subst hd; rw [getAt_incAt_self h, if_pos rfl]
  · rw [getAt_incAt_ne hd, if_neg hd]; omega

theorem getAt_decAt (l : List Nat) (i d : Nat) (h : i < l.length) :
    getAt (decAt l i) d = getAt l d - if i = d then 1 else 0 := by
  by_cases hd : i = d
  · subst hd; rw [getAt_decAt_self h, if_pos rfl]
  · rw [getAt_decAt_ne hd, if_neg hd]; omega

theorem length_decAt (l : List Nat) (i : Nat) : (decAt l i).length = l.length :=
  List.length_set l i _

theorem getAt_of_length_le {l : List Nat} {i : Nat} (h : l.length ≤ i) : getAt l i = 0 := by
  simp [getAt, List.getD_eq_getElem?_getD, List.getElem?_eq_none h]

theorem getAt_eq_getElem {l : List Nat} {i : Nat} (h : i < l.length) : getAt l i = l[i] := by
  simp [getAt, List.getD_eq_getElem?_getD, List.getElem?_eq_getElem h]

/-! ### The counting pass -/

theorem outDegree_nil (d : Nat) : outDegree ([] : List (BidirectedEdge E)) d = 0 := by
  simp [outDegree]

theorem outDegree_cons (e : BidirectedEdge E) (es : List (BidirectedEdge E)) (d : Nat) :
    outDegree (e :: es) d =
      outDegree es d + ((if from_directed_forward e = d then 1 else 0) +
        (if from_directed_reverse e = d then 1 else 0)) := by
  simp only [outDegree, List.countP_cons, beq_iff_eq]
  by_cases h1 : from_directed_forward e = d <;>
    by_cases h2 : from_directed_reverse e = d <;> simp [h1, h2] <;> omega

theorem outDegree_append (es fs : List (BidirectedEdge E)) (d : Nat) :
    outDegree (es ++ fs) d = outDegree es d + outDegree fs d := by
  simp only [outDegree, List.countP_append]; omega

theorem countPass_aux (edges : List (BidirectedEdge E)) (arr : List Nat) (d : Nat)
    (hb : ∀ e ∈ edges, from_directed_forward e < arr.length ∧
      from_directed_reverse e < arr.length) :
    getAt (edges.foldl
      (fun node_array edge =>
        incAt (incAt node_array (from_directed_forward edge)) (from_directed_reverse edge))
      arr) d = getAt arr d + outDegree edges d := by
  induction edges generalizing arr with
  | nil => simp [outDegree_nil]
  | cons e es ih =>
    have he := hb e (by simp)
    have harr : ∀ f ∈ es, from_directed_forward f <
        (incAt (incAt arr (from_directed_forward e)) (from_directed_reverse e)).length ∧
        from_directed_reverse f <
          (incAt (incAt arr (from_directed_forward e)) (from_directed_reverse e)).length := by
      intro f hf
      rw [length_incAt, length_incAt]
      exact hb f (by simp [hf])
    rw [List.foldl_cons, ih _ harr, outDegree_cons,
      getAt_incAt _ _ _ (by rw [length_incAt]; exact he.2),
      getAt_incAt _ _ _ he.1]
    omega

theorem getAt_replicate_zero (n d : Nat) : getAt (List.replicate n 0) d = 0 := by
  by_cases h : d < n
  · simp [getAt, List.getD_eq_getElem?_getD, List.getElem?_replicate, h]
  · exact getAt_of_length_le (by simpa using by omega)

theorem countPass_spec {nodes : List N} {edges : List (BidirectedEdge E)}
    (wf : WellFormedInput nodes edges) (d : Nat) :
    getAt (countPass nodes.length edges) d = outDegree edges d := by
  have hb : ∀ e ∈ edges,
      from_directed_forward e < (List.replicate (nodes.length * 2 + 1) (0 : Nat)).length ∧
      from_directed_reverse e < (List.replicate (nodes.length * 2 + 1) (0 : Nat)).length := by
    intro e he
    rw [List.length_replicate]
    obtain ⟨h1, h2⟩ := wf e he
    constructor
    · have := from_bidirected_lt e.«from» nodes.length e.from_forward h1
      simp only [from_directed_forward]; omega
    · have := from_bidirected_lt e.«to» nodes.length (!e.to_forward) h2
      simp only [from_directed_reverse, to_directed_forward, invert_from_bidirected]
      omega
  rw [countPass, countPass_aux edges _ d hb, getAt_replicate_zero]
  omega

theorem countPass_length (numNodes : Nat) (edges : List (BidirectedEdge E)) :
    (countPass numNodes edges).length = 2 * numNodes + 1 := by
  rw [countPass]
  have : ∀ (arr : List Nat), (edges.foldl
      (fun node_array edge =>
        incAt (incAt node_array (from_directed_forward edge)) (from_directed_reverse edge))
      arr).length = arr.length := by
    intro arr
    induction edges generalizing arr with
    | nil => rfl
    | cons e es ih => rw [List.foldl_cons, ih, length_incAt, length_incAt]
  rw [this, List.length_replicate]; omega

/-! ### The prefix-sum pass -/

theorem prefixSum_length (l : List Nat) (s : Nat) : (prefixSum l s).length = l.length := by
  induction l generalizing s with
  | nil => rfl
  | cons x xs ih => simp [prefixSum, ih]

theorem getAt_prefixSum (l : List Nat) (s : Nat) (i : Nat) (h : i < l.length) :
    getAt (prefixSum l s) i = s + ∑ j ∈ Finset.range (i + 1), getAt l j := by
  induction l generalizing s i with
  | nil => simp at h
  | cons x xs ih =>
    cases i with
    | zero =>
      simp [prefixSum, getAt, List.getD_eq_getElem?_getD]
    | succ i =>
      have hi : i < xs.length := by simpa using h
      have step : ∀ j, getAt (x :: xs) (j + 1) = getAt xs j := by
        intro j; simp [getAt, List.getD_eq_getElem?_getD]
      calc getAt (prefixSum (x :: xs) s) (i + 1)
          = getAt (prefixSum xs (s + x)) i := by
            simp [prefixSum, getAt, List.getD_eq_getElem?_getD]
        _ = s + x + ∑ j ∈ Finset.range (i + 1), getAt xs j := ih (s + x) i hi
        _ = s + ∑ j ∈ Finset.range (i + 2), getAt (x :: xs) j := by
            rw [Finset.sum_range_succ' (getAt (x :: xs)) (i + 1)]
            have h0 : getAt (x :: xs) 0 = x := by simp [getAt]
            have hsum : ∑ j ∈ Finset.range (i + 1), getAt (x :: xs) (j + 1) =
                ∑ j ∈ Finset.range (i + 1), getAt xs j :=
              Finset.sum_congr rfl fun j _ => step j
            rw [hsum, h0]
            omega

theorem listSum_eq_sum_getAt (l : List Nat) :
    listSum l = ∑ j ∈ Finset.range l.length, getAt l j := by
  have aux : ∀ (l : List Nat) (a : Nat),
      l.foldl (· + ·) a = a + ∑ j ∈ Finset.range l.length, getAt l j := by
    intro l
    induction l with
    | nil => simp
    | cons x xs ih =>
      intro a
      have step : ∀ j, getAt (x :: xs) (j + 1) = getAt xs j := by
        intro j; simp [getAt, List.getD_eq_getElem?_getD]
      rw [List.foldl_cons, ih]
      rw [List.length_cons, Finset.sum_range_succ']
      simp only [step]
      have : getAt (x :: xs) 0 = x := by simp [getAt]
      rw [this]; omega
  simpa using aux l 0

/-! ### The placement pass: invariant -/

theorem offsetAt_mono {edges : List (BidirectedEdge E)} {d d' : Nat} (h : d ≤ d') :
    offsetAt edges d ≤ offsetAt edges d' :=
  Finset.sum_le_sum_of_subset (Finset.range_subset.mpr h)

theorem offsetAt_succ (edges : List (BidirectedEdge E)) (d : Nat) :
    offsetAt edges (d + 1) = offsetAt edges d + outDegree edges d :=
  Finset.sum_range_succ _ d

/-- Slots in the offset ranges of two different directed nodes are
distinct. -/
theorem cross_ne {A : List (BidirectedEdge E)} {d d' x y : Nat} (hne : d ≠ d')
    (hx1 : offsetAt A d ≤ x) (hx2 : x < offsetAt A (d + 1))
    (hy1 : offsetAt A d' ≤ y) (hy2 : y < offsetAt A (d' + 1)) : x ≠ y := by
  rcases Nat.lt_or_ge d d' with h | h
  · have : offsetAt A (d + 1) ≤ offsetAt A d' := offsetAt_mono (by omega)
    omega
  · have : offsetAt A (d' + 1) ≤ offsetAt A d := offsetAt_mono (by omega)
    omega

/-- A fresh slot (strictly below its node's counter) differs from an
already claimed slot (at or above its node's counter). -/
theorem slot_fresh {A : List (BidirectedEdge E)} {dN dO xN xO : Nat} (cur : Nat → Nat)
    (hN_lb : offsetAt A dN ≤ xN) (hN_cur : xN < cur dN) (hN_ub : xN < offsetAt A (dN + 1))
    (hO_lb : cur dO ≤ xO) (hO_ub : xO < offsetAt A (dO + 1))
    (hO_off : offsetAt A dO ≤ cur dO) : xN ≠ xO := by
  by_cases h : dN = dO
  · subst h; omega
  · exact cross_ne h hN_lb hN_ub (le_trans hO_off hO_lb) hO_ub

theorem origin_lt {nodes : List N} {edges : List (BidirectedEdge E)}
    (wf : WellFormedInput nodes edges) {e : BidirectedEdge E} (he : e ∈ edges) :
    from_directed_forward e < 2 * nodes.length ∧
      from_directed_reverse e < 2 * nodes.length := by
  obtain ⟨h1, h2⟩ := wf e he
  constructor
  · have := from_bidirected_lt e.«from» nodes.length e.from_forward h1
    simp only [from_directed_forward]; omega
  · have := from_bidirected_lt e.«to» nodes.length (!e.to_forward) h2
    simp only [from_directed_reverse, to_directed_forward, invert_from_bidirected]
    omega

theorem getElem?_set_ne' {α : Type} {l : List α} {i j : Nat} (h : i ≠ j) (a : α) :
    (l.set i a)[j]? = l[j]? := by
  simp [List.getElem?_set_ne h]

theorem getElem?_set_self' {α : Type} {l : List α} {i : Nat} (h : i < l.length) (a : α) :
    (l.set i a)[i]? = some a := by
  simp [List.getElem?_set_eq_of_lt a h]

theorem lt_length_of_getElem? {α : Type} {l : List α} {n : Nat} {a : α}
    (h : l[n]? = some a) : n < l.length := by
  by_contra hc
  rw [List.getElem?_eq_none (by omega)] at h
  simp at h

theorem mem_of_getElem? {α : Type} {l : List α} {n : Nat} {a : α}
    (h : l[n]? = some a) : a ∈ l := by
  have h1 : n < l.length := lt_length_of_getElem? h
  rw [List.getElem?_eq_getElem h1] at h
  have := List.getElem_mem h1
  simp only [Option.some_inj] at h
  rwa [h] at this

/-- `addEdge` written out field by field, with the claimed slots named. -/
theorem addEdge_eq (s : BuildState E) (e : BidirectedEdge E) :
    addEdge s e =
      ⟨decAt (decAt s.node_array (from_directed_forward e)) (from_directed_reverse e),
        (s.edge_array.set (slotForward s e) (to_directed_forward e)).set
          (slotReverse s e) (to_directed_reverse e),
        (s.edge_data_keys.set (slotForward s e)
            ⟨slotReverse s e, some s.edge_data.length⟩).set
          (slotReverse s e) ⟨slotForward s e, none⟩,
        s.edge_data ++ [⟨slotForward s e, slotReverse s e, e.data⟩]⟩ :=
  rfl

theorem placeInv_init {nodes : List N} {edges : List (BidirectedEdge E)}
    (wf : WellFormedInput nodes edges) :
    PlaceInv nodes.length edges [] edges
      ⟨prefixSum (countPass nodes.length edges) 0,
        List.replicate (listSum (countPass nodes.length edges)) 0,
        List.replicate (listSum (countPass nodes.length edges)) ⟨0, none⟩, []⟩ := by
  have hlen := countPass_length nodes.length edges
  have hcount := fun d => countPass_spec wf d
  have htot : listSum (countPass nodes.length edges) =
      offsetAt edges (2 * nodes.length + 1) := by
    rw [listSum_eq_sum_getAt, hlen, offsetAt]
    exact Finset.sum_congr rfl fun j _ => hcount j
  have hcur0 : ∀ d, d < 2 * nodes.length + 1 →
      getAt (prefixSum (countPass nodes.length edges) 0) d =
        offsetAt edges d + outDegree edges d := by
    intro d hd
    rw [getAt_prefixSum _ _ _ (by rw [hlen]; omega)]
    have h2 : ∑ j ∈ Finset.range (d + 1), getAt (countPass nodes.length edges) j =
        ∑ j ∈ Finset.range (d + 1), outDegree edges j :=
      Finset.sum_congr rfl fun j _ => hcount j
    rw [h2]
    have h3 : offsetAt edges (d + 1) = ∑ j ∈ Finset.range (d + 1), outDegree edges j := rfl
    have h4 := offsetAt_succ edges d
    omega
  refine ⟨rfl, ?_, ?_, ?_, hcur0, rfl, ?_, ?_⟩
  · rw [prefixSum_length, hlen]
  · simp [htot]
  · simp [htot]
  · intro j ej ed hj _
    simp at hj
  · intro d hd i hi1 hi2
    rw [hcur0 d hd] at hi1
    have h4 := offsetAt_succ edges d
    omega

theorem placeInv_step {nodes : List N} {allEdges done todo : List (BidirectedEdge E)}
    {s : BuildState E} {e : BidirectedEdge E}
    (wf : WellFormedInput nodes allEdges)
    (inv : PlaceInv nodes.length allEdges done (e :: todo) s) :
    PlaceInv nodes.length allEdges (done ++ [e]) todo (addEdge s e) := by
  obtain ⟨hsplit, hna, hea, hkeys, hcur, hdlen, hentry, hcov⟩ := inv
  have he_mem : e ∈ allEdges := by rw [hsplit]; simp
  have hfdf_lt : from_directed_forward e < 2 * nodes.length := (origin_lt wf he_mem).1
  have hfdr_lt : from_directed_reverse e < 2 * nodes.length := (origin_lt wf he_mem).2
  have hcur_f := hcur (from_directed_forward e) (by omega)
  have hcur_r := hcur (from_directed_reverse e) (by omega)
  have hdeg_f : outDegree (e :: todo) (from_directed_forward e) =
      outDegree todo (from_directed_forward e) + 1 +
        (if from_directed_reverse e = from_directed_forward e then 1 else 0) := by
    rw [outDegree_cons, if_pos rfl]; omega
  have hdeg_r : outDegree (e :: todo) (from_directed_reverse e) =
      outDegree todo (from_directed_reverse e) +
        (if from_directed_forward e = from_directed_reverse e then 1 else 0) + 1 := by
    rw [outDegree_cons, if_pos rfl]; omega
  have hsf : slotForward s e = getAt s.node_array (from_directed_forward e) - 1 := by
    rw [slotForward, getAt_decAt_self (by rw [hna]; omega)]
  have cur2 : ∀ d,
      getAt (decAt (decAt s.node_array (from_directed_forward e))
        (from_directed_reverse e)) d =
      getAt s.node_array d - (if from_directed_forward e = d then 1 else 0) -
        (if from_directed_reverse e = d then 1 else 0) := by
    intro d
    rw [getAt_decAt _ _ _ (by rw [length_decAt, hna]; omega),
      getAt_decAt _ _ _ (by rw [hna]; omega)]
  have hsr : slotReverse s e =
      getAt s.node_array (from_directed_reverse e) -
        (if from_directed_forward e = from_directed_reverse e then 1 else 0) - 1 := by
    rw [slotReverse, getAt_decAt_self (by rw [length_decAt, hna]; omega),
      getAt_decAt _ _ _ (by rw [hna]; omega)]
  have hdeg_suffix : ∀ d, outDegree (e :: todo) d ≤ outDegree allEdges d := by
    intro d
    rw [hsplit, outDegree_append]
    omega
  have hcurf_ub : getAt s.node_array (from_directed_forward e) ≤
      offsetAt allEdges (from_directed_forward e + 1) := by
    rw [hcur_f, offsetAt_succ]
    have := hdeg_suffix (from_directed_forward e)
    omega
  have hcurr_ub : getAt s.node_array (from_directed_reverse e) ≤
      offsetAt allEdges (from_directed_reverse e + 1) := by
    rw [hcur_r, offsetAt_succ]
    have := hdeg_suffix (from_directed_reverse e)
    omega
  have hsf_lb : offsetAt allEdges (from_directed_forward e) ≤ slotForward s e := by
    rw [hsf, hcur_f]; omega
  have hsf_cur : slotForward s e < getAt s.node_array (from_directed_forward e) := by
    rw [hsf, hcur_f]; omega
  have hsf_ub : slotForward s e < offsetAt allEdges (from_directed_forward e + 1) := by
    omega
  have hsr_lb : offsetAt allEdges (from_directed_reverse e) ≤ slotReverse s e := by
    rw [hsr, hcur_r]; omega
  have hsr_cur : slotReverse s e < getAt s.node_array (from_directed_reverse e) := by
    rw [hsr, hcur_r]; omega
  have hsr_ub : slotReverse s e < offsetAt allEdges (from_directed_reverse e + 1) := by
    omega
  have hne_slots : slotForward s e ≠ slotReverse s e := by
    by_cases hsame : from_directed_forward e = from_directed_reverse e
    · have h1 : offsetAt allEdges (from_directed_forward e) + 2 ≤
          getAt s.node_array (from_directed_forward e) := by
        rw [hcur_f, hdeg_f, if_pos hsame.symm]
        omega
      rw [hsf, hsr, if_pos hsame, ← hsame]
      omega
    · exact cross_ne hsame hsf_lb hsf_ub hsr_lb hsr_ub
  have hsf_total : slotForward s e < offsetAt allEdges (2 * nodes.length + 1) :=
    lt_of_lt_of_le hsf_ub (offsetAt_mono (by omega))
  have hsr_total : slotReverse s e < offsetAt allEdges (2 * nodes.length + 1) :=
    lt_of_lt_of_le hsr_ub (offsetAt_mono (by omega))
  -- freshness of the new slots against every already claimed slot
  have fresh : ∀ (j : Nat) (ej : BidirectedEdge E) (ed : BidirectedEdgeData E),
      done[j]? = some ej → s.edge_data[j]? = some ed →
      slotForward s e ≠ ed.forward ∧ slotForward s e ≠ ed.reverse ∧
      slotReverse s e ≠ ed.forward ∧ slotReverse s e ≠ ed.reverse := by
    intro j ej ed hj hd
    obtain E := hentry j ej ed hj hd
    have hej_mem : ej ∈ allEdges := by
      rw [hsplit]; exact List.mem_append_left _ (mem_of_getElem? hj)
    have hfdfj_lt : from_directed_forward ej < 2 * nodes.length := (origin_lt wf hej_mem).1
    have hfdrj_lt : from_directed_reverse ej < 2 * nodes.length := (origin_lt wf hej_mem).2
    have hoff_fj : offsetAt allEdges (from_directed_forward ej) ≤
        getAt s.node_array (from_directed_forward ej) := by
      rw [hcur _ (by omega)]; omega
    have hoff_rj : offsetAt allEdges (from_directed_reverse ej) ≤
        getAt s.node_array (from_directed_reverse ej) := by
      rw [hcur _ (by omega)]; omega
    exact ⟨slot_fresh (getAt s.node_array) hsf_lb hsf_cur hsf_ub E.fwd_lb E.fwd_ub hoff_fj,
      slot_fresh (getAt s.node_array) hsf_lb hsf_cur hsf_ub E.rev_lb E.rev_ub hoff_rj,
      slot_fresh (getAt s.node_array) hsr_lb hsr_cur hsr_ub E.fwd_lb E.fwd_ub hoff_fj,
      slot_fresh (getAt s.node_array) hsr_lb hsr_cur hsr_ub E.rev_lb E.rev_ub hoff_rj⟩
  refine ⟨by rw [hsplit]; simp, ?_, ?_, ?_, ?_, ?_, ?_, ?_⟩
  · rw [addEdge_eq]; simp only [length_decAt]; exact hna
  · rw [addEdge_eq]; simp only [List.length_set]; exact hea
  · rw [addEdge_eq]; simp only [List.length_set]; exact hkeys
  · intro d hd
    rw [addEdge_eq]
    simp only
    rw [cur2 d, hcur d hd, outDegree_cons]
    omega
  · rw [addEdge_eq]; simp only [List.length_append, List.length_singleton]; omega
  · intro j ej ed hj hd
    rw [addEdge_eq] at hd
    simp only at hj hd
    rcases Nat.lt_or_ge j done.length with hjlt | hjge
    · -- previously placed edge: everything is preserved
      have hj' : done[j]? = some ej := by
        rwa [List.getElem?_append_left hjlt] at hj
      have hd' : s.edge_data[j]? = some ed := by
        rwa [List.getElem?_append_left (by omega)] at hd
      obtain E := hentry j ej ed hj' hd'
      obtain ⟨hff, hfr, hrf, hrr⟩ := fresh j ej ed hj' hd'
      refine ⟨E.data_eq, ?_, E.fwd_ub, ?_, E.rev_ub, E.fwd_ne_rev, ?_, ?_, ?_, ?_⟩
      · calc getAt (decAt (decAt s.node_array (from_directed_forward e))
            (from_directed_reverse e)) (from_directed_forward ej)
            ≤ getAt s.node_array (from_directed_forward ej) := by rw [cur2]; omega
          _ ≤ ed.forward := E.fwd_lb
      · calc getAt (decAt (decAt s.node_array (from_directed_forward e))
            (from_directed_reverse e)) (from_directed_reverse ej)
            ≤ getAt s.node_array (from_directed_reverse ej) := by rw [cur2]; omega
          _ ≤ ed.reverse := E.rev_lb
      · show ((s.edge_array.set (slotForward s e) (to_directed_forward e)).set
            (slotReverse s e) (to_directed_reverse e))[ed.forward]? = _
        rw [getElem?_set_ne' hrf, getElem?_set_ne' hff]; exact E.ea_fwd
      · show ((s.edge_array.set (slotForward s e) (to_directed_forward e)).set
            (slotReverse s e) (to_directed_reverse e))[ed.reverse]? = _
        rw [getElem?_set_ne' hrr, getElem?_set_ne' hfr]; exact E.ea_rev
      · show ((s.edge_data_keys.set (slotForward s e)
              ⟨slotReverse s e, some s.edge_data.length⟩).set
            (slotReverse s e) ⟨slotForward s e, none⟩)[ed.forward]? = _
        rw [getElem?_set_ne' hrf, getElem?_set_ne' hff]; exact E.key_fwd
      · show ((s.edge_data_keys.set (slotForward s e)
              ⟨slotReverse s e, some s.edge_data.length⟩).set
            (slotReverse s e) ⟨slotForward s e, none⟩)[ed.reverse]? = _
        rw [getElem?_set_ne' hrr, getElem?_set_ne' hfr]; exact E.key_rev
    · -- the newly placed edge
      have hjlen : j < done.length + 1 := by
        have := lt_length_of_getElem? hj
        simpa using this
      have hjeq : j = done.length := by omega
      subst hjeq
      have hej : ej = e := by
        rw [List.getElem?_concat_length] at hj
        exact (Option.some_inj.mp hj).symm
      have hed : ed = ⟨slotForward s e, slotReverse s e, e.data⟩ := by
        rw [← hdlen] at hd
        rw [List.getElem?_concat_length] at hd
        exact (Option.some_inj.mp hd).symm
      subst hed
      rw [hej]
      refine ⟨rfl, ?_, hsf_ub, ?_, hsr_ub, hne_slots, ?_, ?_, ?_, ?_⟩
      · show getAt (decAt (decAt s.node_array (from_directed_forward e))
            (from_directed_reverse e)) (from_directed_forward e) ≤ slotForward s e
        rw [cur2, hsf]
        have h1 : (if from_directed_forward e = from_directed_forward e then 1 else 0) = 1 :=
          if_pos rfl
        rw [h1]
        omega
      · show getAt (decAt (decAt s.node_array (from_directed_forward e))
            (from_directed_reverse e)) (from_directed_reverse e) ≤ slotReverse s e
        rw [cur2, hsr]
        have h1 : (if from_directed_reverse e = from_directed_reverse e then 1 else 0) = 1 :=
          if_pos rfl
        rw [h1]
      · show ((s.edge_array.set (slotForward s e) (to_directed_forward e)).set
          (slotReverse s e) (to_directed_reverse e))[slotForward s e]? = _
        rw [getElem?_set_ne' (Ne.symm hne_slots),
          getElem?_set_self' (by rw [hea]; exact hsf_total)]
      · show ((s.edge_array.set (slotForward s e) (to_directed_forward e)).set
          (slotReverse s e) (to_directed_reverse e))[slotReverse s e]? = _
        rw [getElem?_set_self' (by rw [List.length_set, hea]; exact hsr_total)]
      · show ((s.edge_data_keys.set (slotForward s e)
            ⟨slotReverse s e, some s.edge_data.length⟩).set
          (slotReverse s e) ⟨slotForward s e, none⟩)[slotForward s e]? = _
        rw [getElem?_set_ne' (Ne.symm hne_slots),
          getElem?_set_self' (by rw [hkeys]; exact hsf_total), hdlen]
      · show ((s.edge_data_keys.set (slotForward s e)
            ⟨slotReverse s e, some s.edge_data.length⟩).set
          (slotReverse s e) ⟨slotForward s e, none⟩)[slotReverse s e]? = _
        rw [getElem?_set_self' (by rw [List.length_set, hkeys]; exact hsr_total)]
  · -- coverage of the claimed region
    intro d hd i hi1 hi2
    have hi1' : getAt (decAt (decAt s.node_array (from_directed_forward e))
        (from_directed_reverse e)) d ≤ i := hi1
    rw [cur2 d] at hi1'
    have hnewdone : (done ++ [e])[done.length]? = some e := List.getElem?_concat_length done e
    have hnewdata : (s.edge_data ++
        [(⟨slotForward s e, slotReverse s e, e.data⟩ : BidirectedEdgeData E)])[done.length]? =
        some ⟨slotForward s e, slotReverse s e, e.data⟩ := by
      rw [← hdlen]
      exact List.getElem?_concat_length _ _
    by_cases hold : getAt s.node_array d ≤ i
    · obtain ⟨j, ej, ed, hj, hdd, hwhich⟩ := hcov d hd i hold hi2
      have hjlt : j < done.length := lt_length_of_getElem? hj
      refine ⟨j, ej, ed, ?_, ?_, hwhich⟩
      · rw [List.getElem?_append_left hjlt]; exact hj
      · show (s.edge_data ++ [_])[j]? = some ed
        rw [List.getElem?_append_left (by omega)]; exact hdd
    · have hlt : i < getAt s.node_array d := by omega
      by_cases hdf : from_directed_forward e = d
      · by_cases hdr : from_directed_reverse e = d
        · rw [hdf, hdr] at hi1'
          have h1 : (if d = d then 1 else 0) = 1 := if_pos rfl
          rw [h1] at hi1'
          have hsf' : slotForward s e = getAt s.node_array d - 1 := by rw [hsf, hdf]
          have hsr' : slotReverse s e = getAt s.node_array d - 2 := by
            rw [hsr, hdf, hdr, h1]
            omega
          have hcases : i = getAt s.node_array d - 1 ∨ i = getAt s.node_array d - 2 := by
            omega
          rcases hcases with hc | hc
          · exact ⟨done.length, e, _, hnewdone, hnewdata,
              Or.inl ⟨by show slotForward s e = i; omega, hdf⟩⟩
          · exact ⟨done.length, e, _, hnewdone, hnewdata,
              Or.inr ⟨by show slotReverse s e = i; omega, hdr⟩⟩
        · rw [hdf] at hi1'
          have h1 : (if d = d then 1 else 0) = 1 := if_pos rfl
          have h2 : (if from_directed_reverse e = d then 1 else 0) = 0 := if_neg hdr
          rw [h1, h2] at hi1'
          have hsf' : slotForward s e = getAt s.node_array d - 1 := by rw [hsf, hdf]
          exact ⟨done.length, e, _, hnewdone, hnewdata,
            Or.inl ⟨by show slotForward s e = i; omega, hdf⟩⟩
      · by_cases hdr : from_directed_reverse e = d
        · rw [hdr] at hi1'
          have h1 : (if d = d then 1 else 0) = 1 := if_pos rfl
          have h2 : (if from_directed_forward e = d then 1 else 0) = 0 := if_neg hdf
          rw [h1, h2] at hi1'
          have h3 : (if from_directed_forward e = from_directed_reverse e then 1 else 0) = 0 := by
            rw [hdr]; exact if_neg hdf
          have hsr' : slotReverse s e = getAt s.node_array d - 1 := by
            rw [hsr, h3, hdr]
            omega
          exact ⟨done.length, e, _, hnewdone, hnewdata,
            Or.inr ⟨by show slotReverse s e = i; omega, hdr⟩⟩
        · have h1 : (if from_directed_forward e = d then 1 else 0) = 0 := if_neg hdf
          have h2 : (if from_directed_reverse e = d then 1 else 0) = 0 := if_neg hdr
          rw [h1, h2] at hi1'
          omega

theorem placeInv_run {nodes : List N} {allEdges : List (BidirectedEdge E)}
    (wf : WellFormedInput nodes allEdges) :
    ∀ (todo done : List (BidirectedEdge E)) (s : BuildState E),
      PlaceInv nodes.length allEdges done todo s →
      PlaceInv nodes.length allEdges allEdges [] (todo.foldl addEdge s)
  | [], done, s, inv => by
    have hdone : allEdges = done := by simpa using inv.split_eq
    rw [List.foldl_nil]
    subst hdone
    exact inv
  | e :: todo, done, s, inv => by
    rw [List.foldl_cons]
    exact placeInv_run wf todo (done ++ [e]) (addEdge s e) (placeInv_step wf inv)

theorem buildResult_inv {nodes : List N} {edges : List (BidirectedEdge E)}
    (wf : WellFormedInput nodes edges) :
    PlaceInv nodes.length edges edges [] (buildResult nodes.length edges) :=
  placeInv_run wf edges [] _ (placeInv_init wf)

theorem new_eq_buildResult (nodes : List N) (edges : List (BidirectedEdge E)) :
    BidirectedAdjacencyArray.new nodes edges =
      ⟨(buildResult nodes.length edges).node_array,
        (buildResult nodes.length edges).edge_array, nodes,
        (buildResult nodes.length edges).edge_data_keys,
        (buildResult nodes.length edges).edge_data⟩ :=
  rfl

/-- Total directed-edge count: twice the number of bidirected edges. -/
theorem offsetAt_total {nodes : List N} {edges : List (BidirectedEdge E)}
    (wf : WellFormedInput nodes edges) :
    offsetAt edges (2 * nodes.length + 1) = 2 * edges.length := by
  have key : ∀ (l : List (BidirectedEdge E)),
      (∀ e ∈ l, from_directed_forward e < 2 * nodes.length + 1 ∧
        from_directed_reverse e < 2 * nodes.length + 1) →
      offsetAt l (2 * nodes.length + 1) = 2 * l.length := by
    intro l
    induction l with
    | nil => intro _; simp [offsetAt, outDegree_nil]
    | cons e es ih =>
      intro hb
      have he := hb e (by simp)
      have hes := ih fun f hf => hb f (by simp [hf])
      have expand : offsetAt (e :: es) (2 * nodes.length + 1) =
          offsetAt es (2 * nodes.length + 1) +
            ((∑ d ∈ Finset.range (2 * nodes.length + 1),
              if from_directed_forward e = d then 1 else 0) +
             (∑ d ∈ Finset.range (2 * nodes.length + 1),
              if from_directed_reverse e = d then 1 else 0)) := by
        rw [offsetAt, offsetAt]
        rw [← Finset.sum_add_distrib, ← Finset.sum_add_distrib]
        exact Finset.sum_congr rfl fun d _ => by rw [outDegree_cons]
      rw [expand, hes]
      rw [Finset.sum_ite_eq (Finset.range (2 * nodes.length + 1)) (from_directed_forward e)
          (fun _ => 1),
        Finset.sum_ite_eq (Finset.range (2 * nodes.length + 1)) (from_directed_reverse e)
          (fun _ => 1)]
      rw [if_pos (Finset.mem_range.mpr (by omega)), if_pos (Finset.mem_range.mpr (by omega))]
      simp
      omega
  exact key edges fun e he => by
    have := origin_lt wf he
    omega

/-- Each directed node's offset range sits inside the successor table. -/
theorem offsetAt_le_total (edges : List (BidirectedEdge E)) {d K : Nat} (h : d ≤ K) :
    offsetAt edges d ≤ offsetAt edges K :=
  offsetAt_mono h

/-- Every directed-edge slot lies in the offset range of exactly one
directed node. -/
theorem exists_interval {edges : List (BidirectedEdge E)} {i K : Nat}
    (h : i < offsetAt edges K) :
    ∃ d < K, offsetAt edges d ≤ i ∧ i < offsetAt edges (d + 1) := by
  induction K with
  | zero => simp [offsetAt] at h
  | succ K ih =>
    by_cases hK : offsetAt edges K ≤ i
    · exact ⟨K, by omega, hK, h⟩
    · obtain ⟨d, hd, h1, h2⟩ := ih (by omega)
      exact ⟨d, by omega, h1, h2⟩

theorem interval_unique {edges : List (BidirectedEdge E)} {d d' i : Nat}
    (h1 : offsetAt edges d ≤ i) (h2 : i < offsetAt edges (d + 1))
    (h1' : offsetAt edges d' ≤ i) (h2' : i < offsetAt edges (d' + 1)) : d = d' := by
  by_contra hne
  exact cross_ne hne h1 h2 h1' h2' rfl

/-! ### Consequences for constructed graphs -/

theorem getAt_eq_of_getElem? {l : List Nat} {i x : Nat} (h : l[i]? = some x) :
    getAt l i = x := by
  simp [getAt, List.getD_eq_getElem?_getD, h]

theorem getD_eq_of_getElem? {α : Type} {l : List α} {i : Nat} {x d : α}
    (h : l[i]? = some x) : l.getD i d = x := by
  simp [List.getD_eq_getElem?_getD, h]

theorem new_node_data (nodes : List N) (edges : List (BidirectedEdge E)) :
    (BidirectedAdjacencyArray.new nodes edges).node_data = nodes :=
  rfl

theorem new_edge_data_length {nodes : List N} {edges : List (BidirectedEdge E)}
    (wf : WellFormedInput nodes edges) :
    (BidirectedAdjacencyArray.new nodes edges).edge_data.length = edges.length := by
  rw [new_eq_buildResult]
  exact (buildResult_inv wf).data_len

theorem new_node_array_length {nodes : List N} {edges : List (BidirectedEdge E)}
    (wf : WellFormedInput nodes edges) :
    (BidirectedAdjacencyArray.new nodes edges).node_array.length = 2 * nodes.length + 1 := by
  rw [new_eq_buildResult]
  exact (buildResult_inv wf).na_len

theorem new_edge_array_length {nodes : List N} {edges : List (BidirectedEdge E)}
    (wf : WellFormedInput nodes edges) :
    (BidirectedAdjacencyArray.new nodes edges).edge_array.length = 2 * edges.length := by
  rw [new_eq_buildResult]
  rw [(buildResult_inv wf).ea_len]
  exact offsetAt_total wf

theorem new_offsets {nodes : List N} {edges : List (BidirectedEdge E)}
    (wf : WellFormedInput nodes edges) {d : Nat} (hd : d < 2 * nodes.length + 1) :
    getAt (BidirectedAdjacencyArray.new nodes edges).node_array d = offsetAt edges d := by
  rw [new_eq_buildResult]
  have := (buildResult_inv wf).cur_eq d hd
  simpa [outDegree_nil] using this

/-- The flattened per-entry facts of a constructed graph. -/
theorem new_entry {nodes : List N} {edges : List (BidirectedEdge E)}
    (wf : WellFormedInput nodes edges) {j : Nat} {ej : BidirectedEdge E}
    {ed : BidirectedEdgeData E} (hj : edges[j]? = some ej)
    (hd : (BidirectedAdjacencyArray.new nodes edges).edge_data[j]? = some ed) :
    ed.data = ej.data ∧
    offsetAt edges (from_directed_forward ej) ≤ ed.forward ∧
    ed.forward < offsetAt edges (from_directed_forward ej + 1) ∧
    offsetAt edges (from_directed_reverse ej) ≤ ed.reverse ∧
    ed.reverse < offsetAt edges (from_directed_reverse ej + 1) ∧
    ed.forward ≠ ed.reverse ∧
    (BidirectedAdjacencyArray.new nodes edges).edge_array[ed.forward]? =
      some (to_directed_forward ej) ∧
    (BidirectedAdjacencyArray.new nodes edges).edge_array[ed.reverse]? =
      some (to_directed_reverse ej) ∧
    (BidirectedAdjacencyArray.new nodes edges).edge_data_keys[ed.forward]? =
      some ⟨ed.reverse, some j⟩ ∧
    (BidirectedAdjacencyArray.new nodes edges).edge_data_keys[ed.reverse]? =
      some ⟨ed.forward, none⟩ := by
  rw [new_eq_buildResult] at hd ⊢
  have inv := buildResult_inv wf
  have hmem : ej ∈ edges := mem_of_getElem? hj
  have hfdf_lt := (origin_lt wf hmem).1
  have hfdr_lt := (origin_lt wf hmem).2
  obtain E := inv.entry j ej ed hj hd
  have hcur_f := inv.cur_eq (from_directed_forward ej) (by omega)
  have hcur_r := inv.cur_eq (from_directed_reverse ej) (by omega)
  rw [outDegree_nil] at hcur_f hcur_r
  refine ⟨E.data_eq, ?_, E.fwd_ub, ?_, E.rev_ub, E.fwd_ne_rev, E.ea_fwd, E.ea_rev,
    E.key_fwd, E.key_rev⟩
  · have := E.fwd_lb; omega
  · have := E.rev_lb; omega

/-- Every slot of the successor table is claimed by some edge, with the
direction matching the directed node whose range the slot lies in. -/
theorem new_covered {nodes : List N} {edges : List (BidirectedEdge E)}
    (wf : WellFormedInput nodes edges) {d i : Nat} (hd : d < 2 * nodes.length + 1)
    (h1 : offsetAt edges d ≤ i) (h2 : i < offsetAt edges (d + 1)) :
    ∃ (j : Nat) (ej : BidirectedEdge E) (ed : BidirectedEdgeData E),
      edges[j]? = some ej ∧
      (BidirectedAdjacencyArray.new nodes edges).edge_data[j]? = some ed ∧
      ((ed.forward = i ∧ from_directed_forward ej = d) ∨
        (ed.reverse = i ∧ from_directed_reverse ej = d)) := by
  rw [new_eq_buildResult]
  have inv := buildResult_inv wf
  have hcur := inv.cur_eq d hd
  rw [outDegree_nil] at hcur
  exact inv.covered d hd i (by omega) h2

theorem new_edge_data_exists {nodes : List N} {edges : List (BidirectedEdge E)}
    (wf : WellFormedInput nodes edges) {j : Nat} (hj : j < edges.length) :
    ∃ (ej : BidirectedEdge E) (ed : BidirectedEdgeData E),
      edges[j]? = some ej ∧
      (BidirectedAdjacencyArray.new nodes edges).edge_data[j]? = some ed := by
  have hlen : j < (BidirectedAdjacencyArray.new nodes edges).edge_data.length := by
    rw [new_edge_data_length wf]; exact hj
  refine ⟨edges[j], (BidirectedAdjacencyArray.new nodes edges).edge_data.get ⟨j, hlen⟩,
    List.getElem?_eq_getElem hj, ?_⟩
  rw [List.getElem?_eq_getElem hlen]
  rfl

/-- The destinations recorded for an edge's two slots. -/
theorem new_dests {nodes : List N} {edges : List (BidirectedEdge E)}
    (wf : WellFormedInput nodes edges) {j : Nat} {ej : BidirectedEdge E}
    {ed : BidirectedEdgeData E} (hj : edges[j]? = some ej)
    (hd : (BidirectedAdjacencyArray.new nodes edges).edge_data[j]? = some ed) :
    getAt (BidirectedAdjacencyArray.new nodes edges).edge_array ed.forward =
      to_directed_forward ej ∧
    getAt (BidirectedAdjacencyArray.new nodes edges).edge_array ed.reverse =
      to_directed_reverse ej := by
  obtain ⟨-, -, -, -, -, -, hf, hr, -, -⟩ := new_entry wf hj hd
  exact ⟨getAt_eq_of_getElem? hf, getAt_eq_of_getElem? hr⟩

/-- `forward_to` and `reverse_to` of `BidirectedAdjacencyArray::edge`, on
a constructed graph: the forward directed edge's destination and the
inverse of the forward directed edge's origin. -/
theorem new_forwardDest_reverseDest [Inhabited E] {nodes : List N}
    {edges : List (BidirectedEdge E)} (wf : WellFormedInput nodes edges) {j : Nat}
    {ej : BidirectedEdge E} (hj : edges[j]? = some ej) :
    forwardDest (BidirectedAdjacencyArray.new nodes edges) j = to_directed_forward ej ∧
    reverseDest (BidirectedAdjacencyArray.new nodes edges) j =
      DirectedNodeIndex.invert (from_directed_forward ej) := by
  have hjlt : j < edges.length := lt_length_of_getElem? hj
  obtain ⟨ej', ed, hj', hd⟩ := new_edge_data_exists wf hjlt
  have : ej' = ej := by rw [hj] at hj'; exact (Option.some_inj.mp hj').symm
  subst this
  obtain ⟨h1, h2⟩ := new_dests wf hj hd
  rw [forwardDest, reverseDest, getD_eq_of_getElem? hd]
  exact ⟨h1, h2⟩

/-- The three-way case split of `BidirectedAdjacencyArray::edge`, decided
by the input edge's shape. -/
theorem new_edge_cases [Inhabited E] {nodes : List N}
    {edges : List (BidirectedEdge E)} (wf : WellFormedInput nodes edges) {j : Nat}
    {ej : BidirectedEdge E} (hj : edges[j]? = some ej) :
    (forwardDest (BidirectedAdjacencyArray.new nodes edges) j =
        reverseDest (BidirectedAdjacencyArray.new nodes edges) j ↔
      ej.«from» = ej.«to» ∧ ej.from_forward ≠ ej.to_forward) ∧
    (DirectedNodeIndex.invert (forwardDest (BidirectedAdjacencyArray.new nodes edges) j) =
        reverseDest (BidirectedAdjacencyArray.new nodes edges) j ↔
      ej.«from» = ej.«to» ∧ ej.from_forward = ej.to_forward) := by
  obtain ⟨hf, hr⟩ := new_forwardDest_reverseDest wf hj
  rw [hf, hr]
  rw [to_directed_forward, from_directed_forward]
  constructor
  · rw [invert_from_bidirected]
    constructor
    · intro h
      obtain ⟨h1, h2⟩ := from_bidirected_inj h
      exact ⟨h1.symm, by cases hb : ej.from_forward <;> simp_all⟩
    · rintro ⟨h1, h2⟩
      rw [h1]
      congr 1
      cases hb : ej.from_forward <;> cases hb' : ej.to_forward <;> simp_all
  · rw [invert_from_bidirected, invert_from_bidirected]
    constructor
    · intro h
      obtain ⟨h1, h2⟩ := from_bidirected_inj h
      refine ⟨h1.symm, ?_⟩
      cases hb : ej.from_forward <;> cases hb' : ej.to_forward <;> simp_all
    · rintro ⟨h1, h2⟩
      rw [h1, h2]

/-- The endpoints and payload of the view built by
`BidirectedAdjacencyArray::edge`, by its three-way case split. -/
theorem edge_from_to [Inhabited E] (g : BidirectedAdjacencyArray N E) (e : Nat) :
    (g.edge e).«from» =
      (if forwardDest g e = reverseDest g e then
        DirectedNodeIndex.invert (forwardDest g e)
      else if DirectedNodeIndex.invert (forwardDest g e) = reverseDest g e then
        forwardDest g e
      else DirectedNodeIndex.invert (reverseDest g e)) ∧
    (g.edge e).«to» = forwardDest g e ∧
    (g.edge e).data = (g.edge_data.getD e ⟨0, 0, default⟩).data ∧
    (g.edge e).forward = (g.edge_data.getD e ⟨0, 0, default⟩).forward ∧
    (g.edge e).reverse = (g.edge_data.getD e ⟨0, 0, default⟩).reverse := by
  rw [BidirectedAdjacencyArray.edge]
  simp only [forwardDest, reverseDest]
  split_ifs <;> simp

/-- On a constructed graph, `edge` reports exactly the directed encodings
of the input edge's endpoints, in all three cases. -/
theorem new_edge_view {nodes : List N} {edges : List (BidirectedEdge E)} [Inhabited E]
    (wf : WellFormedInput nodes edges) {j : Nat} {ej : BidirectedEdge E}
    (hj : edges[j]? = some ej) :
    ((BidirectedAdjacencyArray.new nodes edges).edge j).«from» = from_directed_forward ej ∧
    ((BidirectedAdjacencyArray.new nodes edges).edge j).«to» = to_directed_forward ej := by
  obtain ⟨hf, hr⟩ := new_forwardDest_reverseDest wf hj
  obtain ⟨hfrom_eq, hto_eq, -, -, -⟩ :=
    edge_from_to (BidirectedAdjacencyArray.new nodes edges) j
  constructor
  · rw [hfrom_eq, hf, hr]
    by_cases h1 : to_directed_forward ej =
        DirectedNodeIndex.invert (from_directed_forward ej)
    · rw [if_pos h1, h1, invert_invert]
    · rw [if_neg h1]
      by_cases h2 : DirectedNodeIndex.invert (to_directed_forward ej) =
          DirectedNodeIndex.invert (from_directed_forward ej)
      · rw [if_pos h2, invert_inj h2]
      · rw [if_neg h2, invert_invert]
  · rw [hto_eq, hf]

/-- The payload reported by `edge` on a constructed graph. -/
theorem new_edge_view_data {nodes : List N} {edges : List (BidirectedEdge E)} [Inhabited E]
    (wf : WellFormedInput nodes edges) {j : Nat} {ej : BidirectedEdge E}
    {ed : BidirectedEdgeData E} (hj : edges[j]? = some ej)
    (hd : (BidirectedAdjacencyArray.new nodes edges).edge_data[j]? = some ed) :
    ((BidirectedAdjacencyArray.new nodes edges).edge j).data = ej.data := by
  obtain ⟨-, -, hdata, -, -⟩ := edge_from_to (BidirectedAdjacencyArray.new nodes edges) j
  rw [hdata, getD_eq_of_getElem? hd]
  exact (new_entry wf hj hd).1

/-- `directed_edge_data` on a constructed graph resolves both slots of
every edge: the forward slot through its own back-reference, the reverse
slot through its inverse pointer in one hop. -/
theorem new_directed_edge_data {nodes : List N} {edges : List (BidirectedEdge E)}
    [Inhabited E] (wf : WellFormedInput nodes edges) {j : Nat} {ej : BidirectedEdge E}
    {ed : BidirectedEdgeData E} (hj : edges[j]? = some ej)
    (hd : (BidirectedAdjacencyArray.new nodes edges).edge_data[j]? = some ed) :
    (BidirectedAdjacencyArray.new nodes edges).directed_edge_data ed.forward =
      some ⟨true, j, ed.data⟩ ∧
    (BidirectedAdjacencyArray.new nodes edges).directed_edge_data ed.reverse =
      some ⟨false, j, ed.data⟩ := by
  obtain ⟨-, -, -, -, -, -, -, -, key_f, key_r⟩ := new_entry wf hj hd
  constructor
  · rw [BidirectedAdjacencyArray.directed_edge_data]
    simp only [getD_eq_of_getElem? key_f]
    simp only [getD_eq_of_getElem? hd]
  · rw [BidirectedAdjacencyArray.directed_edge_data]
    simp only [getD_eq_of_getElem? key_r]
    simp only [getD_eq_of_getElem? key_f]
    simp only [getD_eq_of_getElem? hd]

/-- Distinctness of claimed slots across edges, read off the key table. -/
theorem new_slot_inj {nodes : List N} {edges : List (BidirectedEdge E)}
    (wf : WellFormedInput nodes edges) {j j' : Nat} {ej ej' : BidirectedEdge E}
    {ed ed' : BidirectedEdgeData E} (hj : edges[j]? = some ej)
    (hd : (BidirectedAdjacencyArray.new nodes edges).edge_data[j]? = some ed)
    (hj' : edges[j']? = some ej')
    (hd' : (BidirectedAdjacencyArray.new nodes edges).edge_data[j']? = some ed') :
    (ed.forward = ed'.forward → j = j') ∧
    ed.forward ≠ ed'.reverse ∧
    (ed.reverse = ed'.reverse → j = j') := by
  obtain ⟨-, -, -, -, -, -, -, -, key_f, key_r⟩ := new_entry wf hj hd
  obtain ⟨-, -, -, -, -, -, -, -, key_f', key_r'⟩ := new_entry wf hj' hd'
  refine ⟨?_, ?_, ?_⟩
  · intro h
    rw [h, key_f'] at key_f
    have h2 := congrArg EdgeDataKey.data_index (Option.some_inj.mp key_f)
    simpa using h2.symm
  · intro h
    rw [h, key_r'] at key_f
    have h2 := congrArg EdgeDataKey.data_index (Option.some_inj.mp key_f)
    simp at h2
  · intro h
    rw [h, key_r'] at key_r
    have h1 := congrArg EdgeDataKey.inverse (Option.some_inj.mp key_r)
    simp at h1
    rw [← h1, key_f'] at key_f
    have h2 := congrArg EdgeDataKey.data_index (Option.some_inj.mp key_f)
    simpa using h2.symm

theorem outDegree_eq_zero_of_ge {nodes : List N} {edges : List (BidirectedEdge E)}
    (wf : WellFormedInput nodes edges) {d : Nat} (h : 2 * nodes.length ≤ d) :
    outDegree edges d = 0 := by
  rw [outDegree]
  have h1 : edges.countP (fun e => from_directed_forward e == d) = 0 := by
    rw [List.countP_eq_zero]
    intro e he
    have := (origin_lt wf he).1
    simp only [beq_iff_eq]
    omega
  have h2 : edges.countP (fun e => from_directed_reverse e == d) = 0 := by
    rw [List.countP_eq_zero]
    intro e he
    have := (origin_lt wf he).2
    simp only [beq_iff_eq]
    omega
  omega

/-- C1: for every graph constructed by `new` from well-formed input and
every valid bidirected edge index, the view returned by `edge` reports
`from` equal to `DirectedNodeIndex.from_bidirected(from, from_forward)`
and `to` equal to `DirectedNodeIndex.from_bidirected(to, to_forward)` of
the input edge, in all three cases of the accessor. -/
theorem edge_view_reports_input_endpoints {nodes : List N}
    {edges : List (BidirectedEdge E)} [Inhabited E]
    (wf : WellFormedInput nodes edges) {e : Nat} {ej : BidirectedEdge E}
    (hj : edges[e]? = some ej) :
    ((BidirectedAdjacencyArray.new nodes edges).edge e).«from» =
      DirectedNodeIndex.from_bidirected ej.«from» ej.from_forward ∧
    ((BidirectedAdjacencyArray.new nodes edges).edge e).«to» =
      DirectedNodeIndex.from_bidirected ej.«to» ej.to_forward :=
  new_edge_view wf hj

theorem edge_view_reports_input_endpoints_witness :
    ((@BidirectedAdjacencyArray.new Unit Unit [(), ()]
        [⟨0, true, 1, false, ()⟩]).edge 0).«from» =
      DirectedNodeIndex.from_bidirected 0 true ∧
    ((@BidirectedAdjacencyArray.new Unit Unit [(), ()]
        [⟨0, true, 1, false, ()⟩]).edge 0).«to» =
      DirectedNodeIndex.from_bidirected 1 false :=
  edge_view_reports_input_endpoints (by decide)
    (show ([⟨0, true, 1, false, ()⟩] : List (BidirectedEdge Unit))[0]? =
      some ⟨0, true, 1, false, ()⟩ from rfl)

/-- C2 (counterexample): the same-orientation self loop `(0,+)-(0,+)` does
not take the spec's Case A — the destinations of its forward and reverse
slots are not identical directed nodes; it satisfies the Case B condition
(forward destination is the inverse of the reverse destination)
instead. -/
theorem selfloop_same_orientation_not_case_a :
    forwardDest (@BidirectedAdjacencyArray.new Unit Unit
        [()] [⟨0, true, 0, true, ()⟩]) 0 ≠
      reverseDest (@BidirectedAdjacencyArray.new Unit Unit
        [()] [⟨0, true, 0, true, ()⟩]) 0 ∧
    DirectedNodeIndex.invert (forwardDest (@BidirectedAdjacencyArray.new
        Unit Unit [()] [⟨0, true, 0, true, ()⟩]) 0) =
      reverseDest (@BidirectedAdjacencyArray.new Unit Unit
        [()] [⟨0, true, 0, true, ()⟩]) 0 := by
  decide

/-- C2 (amended): on every graph constructed from well-formed input, an
edge with `from = to` and `from_forward ≠ to_forward` takes Case A (the
destinations of its two slots are identical); an edge with `from = to`
and `from_forward = to_forward` takes Case B (the forward destination is
the inverse of the reverse destination); all other edges take Case C; and
the three conditions are mutually exclusive and exhaustive. -/
theorem selfloop_classification {nodes : List N} {edges : List (BidirectedEdge E)}
    [Inhabited E] (wf : WellFormedInput nodes edges) {e : Nat} {ej : BidirectedEdge E}
    (hj : edges[e]? = some ej) :
    (forwardDest (BidirectedAdjacencyArray.new nodes edges) e =
        reverseDest (BidirectedAdjacencyArray.new nodes edges) e ↔
      ej.«from» = ej.«to» ∧ ej.from_forward ≠ ej.to_forward) ∧
    (DirectedNodeIndex.invert (forwardDest (BidirectedAdjacencyArray.new nodes edges) e) =
        reverseDest (BidirectedAdjacencyArray.new nodes edges) e ↔
      ej.«from» = ej.«to» ∧ ej.from_forward = ej.to_forward) ∧
    (¬(forwardDest (BidirectedAdjacencyArray.new nodes edges) e =
        reverseDest (BidirectedAdjacencyArray.new nodes edges) e) ∧
      ¬(DirectedNodeIndex.invert
          (forwardDest (BidirectedAdjacencyArray.new nodes edges) e) =
        reverseDest (BidirectedAdjacencyArray.new nodes edges) e) ↔
      ej.«from» ≠ ej.«to») := by
  obtain ⟨h1, h2⟩ := new_edge_cases wf hj
  refine ⟨h1, h2, ?_⟩
  rw [h1, h2]
  constructor
  · rintro ⟨hA, hB⟩ hft
    by_cases hb : ej.from_forward = ej.to_forward
    · exact hB ⟨hft, hb⟩
    · exact hA ⟨hft, hb⟩
  · intro hne
    exact ⟨fun h => hne h.1, fun h => hne h.1⟩

theorem selfloop_classification_witness :
    (forwardDest (@BidirectedAdjacencyArray.new Unit Unit
        [()] [⟨0, true, 0, false, ()⟩]) 0 =
        reverseDest (@BidirectedAdjacencyArray.new Unit Unit
        [()] [⟨0, true, 0, false, ()⟩]) 0 ↔
      (0 : Nat) = 0 ∧ true ≠ false) ∧
    (DirectedNodeIndex.invert (forwardDest (@BidirectedAdjacencyArray.new
        Unit Unit [()] [⟨0, true, 0, false, ()⟩]) 0) =
        reverseDest (@BidirectedAdjacencyArray.new Unit Unit
        [()] [⟨0, true, 0, false, ()⟩]) 0 ↔
      (0 : Nat) = 0 ∧ true = false) ∧
    (¬(forwardDest (@BidirectedAdjacencyArray.new Unit Unit
        [()] [⟨0, true, 0, false, ()⟩]) 0 =
        reverseDest (@BidirectedAdjacencyArray.new Unit Unit
        [()] [⟨0, true, 0, false, ()⟩]) 0) ∧
      ¬(DirectedNodeIndex.invert (forwardDest (@BidirectedAdjacencyArray.new
          Unit Unit [()] [⟨0, true, 0, false, ()⟩]) 0) =
        reverseDest (@BidirectedAdjacencyArray.new Unit Unit
        [()] [⟨0, true, 0, false, ()⟩]) 0) ↔
      (0 : Nat) ≠ 0) :=
  selfloop_classification (by decide)
    (show ([⟨0, true, 0, false, ()⟩] : List (BidirectedEdge Unit))[0]? =
      some ⟨0, true, 0, false, ()⟩ from rfl)

/-- C4: the offset table of a constructed graph has length
`2*node_count + 1`, is non-decreasing, ends in the sentinel
`2*edge_count`, and adjacent differences are the directed out-degrees
derived from the input edge list. -/
theorem offset_table_invariants {nodes : List N} {edges : List (BidirectedEdge E)}
    (wf : WellFormedInput nodes edges) :
    (BidirectedAdjacencyArray.new nodes edges).node_array.length =
      2 * (BidirectedAdjacencyArray.new nodes edges).node_count + 1 ∧
    (∀ i j, i ≤ j → j < (BidirectedAdjacencyArray.new nodes edges).node_array.length →
      getAt (BidirectedAdjacencyArray.new nodes edges).node_array i ≤
        getAt (BidirectedAdjacencyArray.new nodes edges).node_array j) ∧
    (BidirectedAdjacencyArray.new nodes edges).node_array.getLast? =
      some (2 * (BidirectedAdjacencyArray.new nodes edges).edge_count) ∧
    (∀ d, d < 2 * (BidirectedAdjacencyArray.new nodes edges).node_count →
      getAt (BidirectedAdjacencyArray.new nodes edges).node_array (d + 1) -
        getAt (BidirectedAdjacencyArray.new nodes edges).node_array d =
        outDegree edges d) := by
  have hcount : (BidirectedAdjacencyArray.new nodes edges).node_count = nodes.length := rfl
  have hlen := new_node_array_length wf
  refine ⟨by rw [hlen, hcount], ?_, ?_, ?_⟩
  · intro i j hij hj
    rw [hlen] at hj
    rw [new_offsets wf (by omega), new_offsets wf (by omega)]
    exact offsetAt_mono hij
  · have hml : (BidirectedAdjacencyArray.new nodes edges).edge_count = edges.length := by
      rw [BidirectedAdjacencyArray.edge_count]
      exact new_edge_data_length wf
    rw [hml]
    have h1 : (BidirectedAdjacencyArray.new nodes edges).node_array.getLast? =
        (BidirectedAdjacencyArray.new nodes edges).node_array[2 * nodes.length]? := by
      rw [List.getLast?_eq_getElem?, hlen]
      congr 1
    rw [h1]
    have h2 : (BidirectedAdjacencyArray.new nodes edges).node_array[2 * nodes.length]? =
        some (getAt (BidirectedAdjacencyArray.new nodes edges).node_array
          (2 * nodes.length)) := by
      rw [List.getElem?_eq_getElem (by omega)]
      simp [getAt, List.getD_eq_getElem?_getD, List.getElem?_eq_getElem (by omega : 2 * nodes.length < (BidirectedAdjacencyArray.new nodes edges).node_array.length)]
    rw [h2, new_offsets wf (by omega)]
    have h3 : offsetAt edges (2 * nodes.length) = offsetAt edges (2 * nodes.length + 1) := by
      rw [offsetAt_succ, outDegree_eq_zero_of_ge wf (by omega)]
      omega
    rw [h3, offsetAt_total wf]
  · intro d hd
    rw [hcount] at hd
    rw [new_offsets wf (by omega), new_offsets wf (by omega), offsetAt_succ]
    omega

theorem offset_table_invariants_witness :
    (@BidirectedAdjacencyArray.new Unit Unit [(), ()]
        [⟨0, true, 1, true, ()⟩]).node_array.length =
      2 * (@BidirectedAdjacencyArray.new Unit Unit [(), ()]
        [⟨0, true, 1, true, ()⟩]).node_count + 1 ∧
    (∀ i j, i ≤ j →
      j < (@BidirectedAdjacencyArray.new Unit Unit [(), ()]
        [⟨0, true, 1, true, ()⟩]).node_array.length →
      getAt (@BidirectedAdjacencyArray.new Unit Unit [(), ()]
        [⟨0, true, 1, true, ()⟩]).node_array i ≤
        getAt (@BidirectedAdjacencyArray.new Unit Unit [(), ()]
          [⟨0, true, 1, true, ()⟩]).node_array j) ∧
    (@BidirectedAdjacencyArray.new Unit Unit [(), ()]
        [⟨0, true, 1, true, ()⟩]).node_array.getLast? =
      some (2 * (@BidirectedAdjacencyArray.new Unit Unit [(), ()]
        [⟨0, true, 1, true, ()⟩]).edge_count) ∧
    (∀ d, d < 2 * (@BidirectedAdjacencyArray.new Unit Unit
        [(), ()] [⟨0, true, 1, true, ()⟩]).node_count →
      getAt (@BidirectedAdjacencyArray.new Unit Unit [(), ()]
          [⟨0, true, 1, true, ()⟩]).node_array (d + 1) -
        getAt (@BidirectedAdjacencyArray.new Unit Unit [(), ()]
          [⟨0, true, 1, true, ()⟩]).node_array d =
        outDegree [⟨0, true, 1, true, ()⟩] d) :=
  offset_table_invariants (by decide)

/-- C5: for every constructed graph and valid bidirected edge, the two
recorded directed-edge slots are distinct, their key records name each
other as mutual inverses, and exactly one of the pair (the forward slot)
carries a present payload back-reference equal to the bidirected edge
index. -/
theorem edge_slots_mutual_inverse {nodes : List N} {edges : List (BidirectedEdge E)}
    (wf : WellFormedInput nodes edges) {e : Nat} {ej : BidirectedEdge E}
    {ed : BidirectedEdgeData E} (hj : edges[e]? = some ej)
    (hd : (BidirectedAdjacencyArray.new nodes edges).edge_data[e]? = some ed) :
    ed.forward ≠ ed.reverse ∧
    (BidirectedAdjacencyArray.new nodes edges).edge_data_keys[ed.forward]? =
      some ⟨ed.reverse, some e⟩ ∧
    (BidirectedAdjacencyArray.new nodes edges).edge_data_keys[ed.reverse]? =
      some ⟨ed.forward, none⟩ := by
  obtain ⟨-, -, -, -, -, hne, -, -, kf, kr⟩ := new_entry wf hj hd
  exact ⟨hne, kf, kr⟩

theorem edge_slots_mutual_inverse_witness :
    ((⟨0, 1, ()⟩ : BidirectedEdgeData Unit).forward ≠
      (⟨0, 1, ()⟩ : BidirectedEdgeData Unit).reverse) ∧
    (@BidirectedAdjacencyArray.new Unit Unit [(), ()]
        [⟨0, true, 1, true, ()⟩]).edge_data_keys[
          (⟨0, 1, ()⟩ : BidirectedEdgeData Unit).forward]? =
      some ⟨(⟨0, 1, ()⟩ : BidirectedEdgeData Unit).reverse, some 0⟩ ∧
    (@BidirectedAdjacencyArray.new Unit Unit [(), ()]
        [⟨0, true, 1, true, ()⟩]).edge_data_keys[
          (⟨0, 1, ()⟩ : BidirectedEdgeData Unit).reverse]? =
      some ⟨(⟨0, 1, ()⟩ : BidirectedEdgeData Unit).forward, none⟩ :=
  edge_slots_mutual_inverse (by decide)
    (show ([⟨0, true, 1, true, ()⟩] : List (BidirectedEdge Unit))[0]? =
      some ⟨0, true, 1, true, ()⟩ from rfl)
    (by decide)

/-- C7: on a constructed graph, `directed_edge_data` never reaches its
fatal-failure branch for a valid directed edge index: it returns a view,
and the view's `is_forward` flag is true exactly when the directed edge
itself carries a present back-reference. -/
theorem directed_edge_data_total {nodes : List N} {edges : List (BidirectedEdge E)}
    [Inhabited E] (wf : WellFormedInput nodes edges) {d : Nat}
    (hd : d < 2 * edges.length) :
    ∃ v : DirectedEdgeDataView E,
      (BidirectedAdjacencyArray.new nodes edges).directed_edge_data d = some v ∧
      (v.is_forward = true ↔
        ((BidirectedAdjacencyArray.new nodes edges).edge_data_keys.getD d
          ⟨0, none⟩).data_index.isSome = true) := by
  have htot : d < offsetAt edges (2 * nodes.length + 1) := by
    rw [offsetAt_total wf]; exact hd
  obtain ⟨dn, hdn, h1, h2⟩ := exists_interval htot
  obtain ⟨j, ej, ed, hj, hdd, hwhich⟩ := new_covered wf hdn h1 h2
  obtain ⟨hres_f, hres_r⟩ := new_directed_edge_data wf hj hdd
  obtain ⟨-, -, -, -, -, -, -, -, kf, kr⟩ := new_entry wf hj hdd
  rcases hwhich with ⟨hsl, -⟩ | ⟨hsl, -⟩
  · refine ⟨⟨true, j, ed.data⟩, ?_, ?_⟩
    · rw [← hsl]; exact hres_f
    · rw [← hsl, getD_eq_of_getElem? kf]
      simp
  · refine ⟨⟨false, j, ed.data⟩, ?_, ?_⟩
    · rw [← hsl]; exact hres_r
    · rw [← hsl, getD_eq_of_getElem? kr]
      simp

theorem directed_edge_data_total_witness :
    ∃ v : DirectedEdgeDataView Unit,
      (@BidirectedAdjacencyArray.new Unit Unit [(), ()]
        [⟨0, true, 1, true, ()⟩]).directed_edge_data 0 = some v ∧
      (v.is_forward = true ↔
        ((@BidirectedAdjacencyArray.new Unit Unit [(), ()]
          [⟨0, true, 1, true, ()⟩]).edge_data_keys.getD 0
            ⟨0, none⟩).data_index.isSome = true) :=
  directed_edge_data_total (by decide) (by decide)

/-- C8: inversion of directed node indices and of directed edge indices
is involutive and fixed-point free, and inverting a directed node index
toggles only the low bit: the owning bidirected node is unchanged and the
side flag is flipped.  (`DirectedEdgeIndex.invert` is modelled from the
spec, the macro-generated source being outside the repository.) -/
theorem invert_involutive_and_fixed_point_free :
    (∀ d : Nat, DirectedNodeIndex.invert (DirectedNodeIndex.invert d) = d ∧
      DirectedNodeIndex.invert d ≠ d ∧
      DirectedNodeIndex.into_bidirected (DirectedNodeIndex.invert d) =
        DirectedNodeIndex.into_bidirected d ∧
      DirectedNodeIndex.is_forward (DirectedNodeIndex.invert d) =
        !DirectedNodeIndex.is_forward d) ∧
    (∀ d : Nat, DirectedEdgeIndex.invert (DirectedEdgeIndex.invert d) = d ∧
      DirectedEdgeIndex.invert d ≠ d) := by
  constructor
  · intro d
    exact ⟨invert_invert d, invert_ne d, into_bidirected_invert d, is_forward_invert d⟩
  · intro d
    refine ⟨Nat.xor_cancel_right 1 d, ?_⟩
    exact invert_ne d

/-! ### Incident-edge iteration -/

theorem tdf_eq_fdf_iff (ej : BidirectedEdge E) :
    to_directed_forward ej = from_directed_forward ej ↔
      ej.«from» = ej.«to» ∧ ej.from_forward = ej.to_forward := by
  rw [to_directed_forward, from_directed_forward]
  constructor
  · intro h
    obtain ⟨h1, h2⟩ := from_bidirected_inj h
    exact ⟨h1.symm, h2.symm⟩
  · rintro ⟨h1, h2⟩
    rw [h1, h2]

theorem tdf_eq_invert_fdf_iff (ej : BidirectedEdge E) :
    to_directed_forward ej = DirectedNodeIndex.invert (from_directed_forward ej) ↔
      ej.«from» = ej.«to» ∧ ej.from_forward ≠ ej.to_forward := by
  rw [to_directed_forward, from_directed_forward, invert_from_bidirected]
  constructor
  · intro h
    obtain ⟨h1, h2⟩ := from_bidirected_inj h
    refine ⟨h1.symm, ?_⟩
    cases hb : ej.from_forward <;> simp_all
  · rintro ⟨h1, h2⟩
    rw [h1]
    congr 1
    cases hb : ej.from_forward <;> cases hb' : ej.to_forward <;> simp_all

/-- The successor slice returned by `iter_outgoing_edges`, as a mapped
index range. -/
theorem iter_outgoing_spec (g : BidirectedAdjacencyArray N E) (d : Nat)
    (h1 : getAt g.node_array d ≤ getAt g.node_array (d + 1))
    (h2 : getAt g.node_array (d + 1) ≤ g.edge_array.length) :
    g.iter_outgoing_edges d =
      (List.range' (getAt g.node_array d)
        (getAt g.node_array (d + 1) - getAt g.node_array d)).map
        fun i => ⟨d, getAt g.edge_array i, i⟩ := by
  rw [BidirectedAdjacencyArray.iter_outgoing_edges]
  apply List.ext_getElem
  · simp only [List.length_map, List.length_drop, List.length_take, List.enum_length,
      List.length_range']
    omega
  · intro i hi hi'
    simp only [List.length_map, List.length_drop, List.length_take, List.enum_length] at hi
    have hlt : getAt g.node_array d + i < getAt g.node_array (d + 1) := by omega
    have hltl : getAt g.node_array d + i < g.edge_array.length := by omega
    simp only [List.getElem_map, List.getElem_drop, List.getElem_take, List.getElem_enum,
      List.getElem_range', Nat.one_mul]
    congr 1
    exact (getAt_eq_getElem hltl).symm

/-- `Nodup` for `filterMap` when the function is injective on the list's
members that map to `some`. -/
theorem nodup_filterMap_of_inj {α β : Type} {l : List α} {f : α → Option β}
    (hl : l.Nodup)
    (h : ∀ a ∈ l, ∀ a' ∈ l, ∀ b, f a = some b → f a' = some b → a = a') :
    (l.filterMap f).Nodup := by
  induction l with
  | nil => simp
  | cons x xs ih =>
    rw [List.filterMap_cons]
    have hxs : xs.Nodup := (List.nodup_cons.mp hl).2
    have hx : x ∉ xs := (List.nodup_cons.mp hl).1
    have hrec := ih hxs fun a ha a' ha' b h1 h2 =>
      h a (by simp [ha]) a' (by simp [ha']) b h1 h2
    cases hfx : f x with
    | none => exact hrec
    | some b =>
      rw [List.nodup_cons]
      refine ⟨?_, hrec⟩
      intro hmem
      obtain ⟨a, ha, hfa⟩ := List.mem_filterMap.mp hmem
      have : x = a := h x (by simp) a (by simp [ha]) b hfx hfa
      rw [this] at hx
      exact hx ha

/-- Evaluating the incident-edge filter at an edge's forward storage
slot: always reported, with the owning bidirected edge index. -/
theorem incidentFilter_forward {nodes : List N} {edges : List (BidirectedEdge E)}
    [Inhabited E] (wf : WellFormedInput nodes edges) {j : Nat} {ej : BidirectedEdge E}
    {ed : BidirectedEdgeData E} (hj : edges[j]? = some ej)
    (hd : (BidirectedAdjacencyArray.new nodes edges).edge_data[j]? = some ed) :
    incidentFilter (BidirectedAdjacencyArray.new nodes edges)
      ⟨from_directed_forward ej,
        getAt (BidirectedAdjacencyArray.new nodes edges).edge_array ed.forward,
        ed.forward⟩ = some j := by
  obtain ⟨hres_f, -⟩ := new_directed_edge_data wf hj hd
  obtain ⟨hdest_f, -⟩ := new_dests wf hj hd
  rw [hdest_f]
  simp only [incidentFilter, hres_f]
  split_ifs <;> rfl

/-- Evaluating the incident-edge filter at an edge's reverse slot:
suppressed exactly for self loops. -/
theorem incidentFilter_reverse {nodes : List N} {edges : List (BidirectedEdge E)}
    [Inhabited E] (wf : WellFormedInput nodes edges) {j : Nat} {ej : BidirectedEdge E}
    {ed : BidirectedEdgeData E} (hj : edges[j]? = some ej)
    (hd : (BidirectedAdjacencyArray.new nodes edges).edge_data[j]? = some ed) :
    incidentFilter (BidirectedAdjacencyArray.new nodes edges)
      ⟨from_directed_reverse ej,
        getAt (BidirectedAdjacencyArray.new nodes edges).edge_array ed.reverse,
        ed.reverse⟩ = (if ej.«from» = ej.«to» then none else some j) := by
  obtain ⟨-, hres_r⟩ := new_directed_edge_data wf hj hd
  obtain ⟨-, hdest_r⟩ := new_dests wf hj hd
  rw [hdest_r]
  have hcond : (from_directed_reverse ej = to_directed_reverse ej ∨
      from_directed_reverse ej = DirectedNodeIndex.invert (to_directed_reverse ej)) ↔
      ej.«from» = ej.«to» := by
    rw [from_directed_reverse, to_directed_reverse, invert_invert]
    constructor
    · rintro (h | h)
      · exact ((tdf_eq_fdf_iff ej).mp (invert_inj h)).1
      · have h' := congrArg DirectedNodeIndex.invert h
        rw [invert_invert] at h'
        exact ((tdf_eq_invert_fdf_iff ej).mp h').1
    · intro h
      by_cases hb : ej.from_forward = ej.to_forward
      · exact Or.inl (congrArg DirectedNodeIndex.invert ((tdf_eq_fdf_iff ej).mpr ⟨h, hb⟩))
      · refine Or.inr ?_
        rw [(tdf_eq_invert_fdf_iff ej).mpr ⟨h, hb⟩, invert_invert]
  simp only [incidentFilter, hres_r]
  by_cases hself : ej.«from» = ej.«to»
  · rw [if_pos (hcond.mpr hself), if_pos hself]
    rfl
  · rw [if_neg fun hc => hself (hcond.mp hc), if_neg hself]

/-- Evaluating the incident-edge filter at an arbitrary claimed slot of a
directed node's successor range. -/
theorem slot_filter_eval {nodes : List N} {edges : List (BidirectedEdge E)}
    [Inhabited E] (wf : WellFormedInput nodes edges) {dn i : Nat}
    (hdn : dn < 2 * nodes.length + 1) (h1 : offsetAt edges dn ≤ i)
    (h2 : i < offsetAt edges (dn + 1)) :
    ∃ (j : Nat) (ej : BidirectedEdge E) (ed : BidirectedEdgeData E),
      edges[j]? = some ej ∧
      (BidirectedAdjacencyArray.new nodes edges).edge_data[j]? = some ed ∧
      ((i = ed.forward ∧ from_directed_forward ej = dn ∧
          incidentFilter (BidirectedAdjacencyArray.new nodes edges)
            ⟨dn, getAt (BidirectedAdjacencyArray.new nodes edges).edge_array i, i⟩ =
            some j) ∨
        (i = ed.reverse ∧ from_directed_reverse ej = dn ∧
          incidentFilter (BidirectedAdjacencyArray.new nodes edges)
            ⟨dn, getAt (BidirectedAdjacencyArray.new nodes edges).edge_array i, i⟩ =
            (if ej.«from» = ej.«to» then none else some j))) := by
  obtain ⟨j, ej, ed, hj, hd, hwhich⟩ := new_covered wf hdn h1 h2
  rcases hwhich with ⟨hsl, hdn_eq⟩ | ⟨hsl, hdn_eq⟩
  · refine ⟨j, ej, ed, hj, hd, Or.inl ⟨hsl.symm, hdn_eq, ?_⟩⟩
    rw [← hsl, ← hdn_eq]
    exact incidentFilter_forward wf hj hd
  · refine ⟨j, ej, ed, hj, hd, Or.inr ⟨hsl.symm, hdn_eq, ?_⟩⟩
    rw [← hsl, ← hdn_eq]
    exact incidentFilter_reverse wf hj hd

theorem fdr_eq (ej : BidirectedEdge E) :
    from_directed_reverse ej =
      DirectedNodeIndex.from_bidirected ej.«to» (!ej.to_forward) := by
  rw [from_directed_reverse, to_directed_forward, invert_from_bidirected]

/-- The incident-edge iterator as a filter over the two successor
ranges of the node's sides. -/
theorem iter_incident_decomp {nodes : List N} {edges : List (BidirectedEdge E)}
    [Inhabited E] (wf : WellFormedInput nodes edges) {n : Nat} (hn : n < nodes.length) :
    (BidirectedAdjacencyArray.new nodes edges).iter_incident_edges n =
      (((List.range' (offsetAt edges (DirectedNodeIndex.from_bidirected n true))
          (offsetAt edges (DirectedNodeIndex.from_bidirected n true + 1) -
            offsetAt edges (DirectedNodeIndex.from_bidirected n true))).map
          fun i => (⟨DirectedNodeIndex.from_bidirected n true,
            getAt (BidirectedAdjacencyArray.new nodes edges).edge_array i, i⟩ :
              DirectedEdge)) ++
        ((List.range' (offsetAt edges (DirectedNodeIndex.from_bidirected n false))
          (offsetAt edges (DirectedNodeIndex.from_bidirected n false + 1) -
            offsetAt edges (DirectedNodeIndex.from_bidirected n false))).map
          fun i => (⟨DirectedNodeIndex.from_bidirected n false,
            getAt (BidirectedAdjacencyArray.new nodes edges).edge_array i, i⟩ :
              DirectedEdge))).filterMap
        (incidentFilter (BidirectedAdjacencyArray.new nodes edges)) := by
  have hF_lt : DirectedNodeIndex.from_bidirected n true < 2 * nodes.length :=
    from_bidirected_lt n nodes.length true hn
  have hR_lt : DirectedNodeIndex.from_bidirected n false < 2 * nodes.length :=
    from_bidirected_lt n nodes.length false hn
  have hlen_ea : (BidirectedAdjacencyArray.new nodes edges).edge_array.length =
      offsetAt edges (2 * nodes.length + 1) := by
    rw [new_edge_array_length wf, offsetAt_total wf]
  have hbound : ∀ d, d < 2 * nodes.length →
      getAt (BidirectedAdjacencyArray.new nodes edges).node_array d ≤
        getAt (BidirectedAdjacencyArray.new nodes edges).node_array (d + 1) ∧
      getAt (BidirectedAdjacencyArray.new nodes edges).node_array (d + 1) ≤
        (BidirectedAdjacencyArray.new nodes edges).edge_array.length := by
    intro d hd
    rw [new_offsets wf (by omega), new_offsets wf (by omega), hlen_ea]
    exact ⟨offsetAt_mono (by omega), offsetAt_mono (by omega)⟩
  rw [BidirectedAdjacencyArray.iter_incident_edges]
  rw [iter_outgoing_spec _ _ (hbound _ hF_lt).1 (hbound _ hF_lt).2,
    iter_outgoing_spec _ _ (hbound _ hR_lt).1 (hbound _ hR_lt).2,
    new_offsets wf (by omega), new_offsets wf (by omega),
    new_offsets wf (by omega), new_offsets wf (by omega)]

theorem side_of_from_bidirected_eq {n x : Nat} {b b' : Bool}
    (h : DirectedNodeIndex.from_bidirected x b = DirectedNodeIndex.from_bidirected n b') :
    x = n :=
  (from_bidirected_inj h).1

/-- Analysis of a surviving entry of the incident-edge filter at a slot
of a directed node's range: it names the slot's owner, and a surviving
reverse slot belongs to a non-self-loop. -/
theorem incident_analyze {nodes : List N} {edges : List (BidirectedEdge E)}
    [Inhabited E] (wf : WellFormedInput nodes edges) {dn i k : Nat}
    (hdn : dn < 2 * nodes.length + 1) (h1 : offsetAt edges dn ≤ i)
    (h2 : i < offsetAt edges (dn + 1))
    (hf : incidentFilter (BidirectedAdjacencyArray.new nodes edges)
      ⟨dn, getAt (BidirectedAdjacencyArray.new nodes edges).edge_array i, i⟩ = some k) :
    ∃ (ej : BidirectedEdge E) (ed : BidirectedEdgeData E),
      edges[k]? = some ej ∧
      (BidirectedAdjacencyArray.new nodes edges).edge_data[k]? = some ed ∧
      ((i = ed.forward ∧ from_directed_forward ej = dn) ∨
        (i = ed.reverse ∧ from_directed_reverse ej = dn ∧ ej.«from» ≠ ej.«to»)) := by
  obtain ⟨j, ej, ed, hj, hd, hcase⟩ := slot_filter_eval wf hdn h1 h2
  rcases hcase with ⟨hi, hdneq, hval⟩ | ⟨hi, hdneq, hval⟩
  · rw [hval] at hf
    have hjk : j = k := Option.some_inj.mp hf
    subst hjk
    exact ⟨ej, ed, hj, hd, Or.inl ⟨hi, hdneq⟩⟩
  · rw [hval] at hf
    by_cases hself : ej.«from» = ej.«to»
    · rw [if_pos hself] at hf
      simp at hf
    · rw [if_neg hself] at hf
      have hjk : j = k := Option.some_inj.mp hf
      subst hjk
      exact ⟨ej, ed, hj, hd, Or.inr ⟨hi, hdneq, hself⟩⟩

/-- Two surviving occurrences of the same bidirected edge index in the
two successor ranges of node `n`'s sides coincide. -/
theorem incident_unique {nodes : List N} {edges : List (BidirectedEdge E)}
    [Inhabited E] (wf : WellFormedInput nodes edges) {n dn i dn' i' k : Nat}
    (hdnFR : dn = DirectedNodeIndex.from_bidirected n true ∨
      dn = DirectedNodeIndex.from_bidirected n false)
    (hdnFR' : dn' = DirectedNodeIndex.from_bidirected n true ∨
      dn' = DirectedNodeIndex.from_bidirected n false)
    (hn : n < nodes.length)
    (h1 : offsetAt edges dn ≤ i) (h2 : i < offsetAt edges (dn + 1))
    (h1' : offsetAt edges dn' ≤ i') (h2' : i' < offsetAt edges (dn' + 1))
    (hf : incidentFilter (BidirectedAdjacencyArray.new nodes edges)
      ⟨dn, getAt (BidirectedAdjacencyArray.new nodes edges).edge_array i, i⟩ = some k)
    (hf' : incidentFilter (BidirectedAdjacencyArray.new nodes edges)
      ⟨dn', getAt (BidirectedAdjacencyArray.new nodes edges).edge_array i', i'⟩ = some k) :
    i = i' ∧ dn = dn' := by
  have hdn_lt : dn < 2 * nodes.length + 1 := by
    rcases hdnFR with rfl | rfl
    · have := from_bidirected_lt n nodes.length true hn
      omega
    · have := from_bidirected_lt n nodes.length false hn
      omega
  have hdn_lt' : dn' < 2 * nodes.length + 1 := by
    rcases hdnFR' with rfl | rfl
    · have := from_bidirected_lt n nodes.length true hn
      omega
    · have := from_bidirected_lt n nodes.length false hn
      omega
  obtain ⟨ej, ed, hj, hd, hc⟩ := incident_analyze wf hdn_lt h1 h2 hf
  obtain ⟨ej2, ed2, hj2, hd2, hc2⟩ := incident_analyze wf hdn_lt' h1' h2' hf'
  have hej : ej = ej2 := by rw [hj] at hj2; exact Option.some_inj.mp hj2
  have hed : ed = ed2 := by rw [hd] at hd2; exact Option.some_inj.mp hd2
  subst hej; subst hed
  have hfrom_of : ∀ d, (d = DirectedNodeIndex.from_bidirected n true ∨
      d = DirectedNodeIndex.from_bidirected n false) →
      from_directed_forward ej = d → ej.«from» = n := by
    intro d hdFR hfd
    rcases hdFR with rfl | rfl <;>
      exact side_of_from_bidirected_eq hfd
  have hto_of : ∀ d, (d = DirectedNodeIndex.from_bidirected n true ∨
      d = DirectedNodeIndex.from_bidirected n false) →
      from_directed_reverse ej = d → ej.«to» = n := by
    intro d hdFR hfd
    rw [fdr_eq] at hfd
    rcases hdFR with rfl | rfl <;>
      exact side_of_from_bidirected_eq hfd
  rcases hc with ⟨hif, hdneq⟩ | ⟨hir, hdneq, hne⟩ <;>
    rcases hc2 with ⟨hif', hdneq'⟩ | ⟨hir', hdneq', hne'⟩
  · exact ⟨by omega, by rw [← hdneq, ← hdneq']⟩
  · exact absurd ((hfrom_of dn hdnFR hdneq).trans (hto_of dn' hdnFR' hdneq').symm) hne'
  · exact absurd ((hfrom_of dn' hdnFR' hdneq').trans (hto_of dn hdnFR hdneq).symm) hne
  · exact ⟨by omega, by rw [← hdneq, ← hdneq']⟩

/-- C6: `iter_incident_edges` yields exactly the bidirected edge indices
incident to the node, each exactly once: a directed edge of one of the
two self-loop varieties is reported only from its forward storage slot,
the dual being suppressed. -/
theorem iter_incident_edges_exact {nodes : List N} {edges : List (BidirectedEdge E)}
    [Inhabited E] (wf : WellFormedInput nodes edges) {n : Nat} (hn : n < nodes.length) :
    ((BidirectedAdjacencyArray.new nodes edges).iter_incident_edges n).Nodup ∧
    ∀ k, k ∈ (BidirectedAdjacencyArray.new nodes edges).iter_incident_edges n ↔
      ∃ ej : BidirectedEdge E, edges[k]? = some ej ∧ (ej.«from» = n ∨ ej.«to» = n) := by
  have hdecomp := iter_incident_decomp wf hn
  have hF_lt : DirectedNodeIndex.from_bidirected n true < 2 * nodes.length :=
    from_bidirected_lt n nodes.length true hn
  have hR_lt : DirectedNodeIndex.from_bidirected n false < 2 * nodes.length :=
    from_bidirected_lt n nodes.length false hn
  have hFneR : DirectedNodeIndex.from_bidirected n true ≠
      DirectedNodeIndex.from_bidirected n false := by
    rw [from_bidirected_eq, from_bidirected_eq]
    norm_num
  have hrange : ∀ d : Nat, ∀ i,
      i ∈ List.range' (offsetAt edges d) (offsetAt edges (d + 1) - offsetAt edges d) ↔
      offsetAt edges d ≤ i ∧ i < offsetAt edges (d + 1) := by
    intro d i
    rw [List.mem_range'_1]
    have hmono : offsetAt edges d ≤ offsetAt edges (d + 1) := offsetAt_mono (Nat.le_succ d)
    omega
  have hchainmem : ∀ de : DirectedEdge,
      (de ∈ ((List.range' (offsetAt edges (DirectedNodeIndex.from_bidirected n true))
          (offsetAt edges (DirectedNodeIndex.from_bidirected n true + 1) -
            offsetAt edges (DirectedNodeIndex.from_bidirected n true))).map
          fun i => (⟨DirectedNodeIndex.from_bidirected n true,
            getAt (BidirectedAdjacencyArray.new nodes edges).edge_array i, i⟩ :
              DirectedEdge)) ++
        ((List.range' (offsetAt edges (DirectedNodeIndex.from_bidirected n false))
          (offsetAt edges (DirectedNodeIndex.from_bidirected n false + 1) -
            offsetAt edges (DirectedNodeIndex.from_bidirected n false))).map
          fun i => (⟨DirectedNodeIndex.from_bidirected n false,
            getAt (BidirectedAdjacencyArray.new nodes edges).edge_array i, i⟩ :
              DirectedEdge))) ↔
      ((∃ i, (offsetAt edges (DirectedNodeIndex.from_bidirected n true) ≤ i ∧
          i < offsetAt edges (DirectedNodeIndex.from_bidirected n true + 1)) ∧
          de = ⟨DirectedNodeIndex.from_bidirected n true,
            getAt (BidirectedAdjacencyArray.new nodes edges).edge_array i, i⟩) ∨
        (∃ i, (offsetAt edges (DirectedNodeIndex.from_bidirected n false) ≤ i ∧
          i < offsetAt edges (DirectedNodeIndex.from_bidirected n false + 1)) ∧
          de = ⟨DirectedNodeIndex.from_bidirected n false,
            getAt (BidirectedAdjacencyArray.new nodes edges).edge_array i, i⟩)) := by
    intro de
    rw [List.mem_append, List.mem_map, List.mem_map]
    constructor
    · rintro (⟨i, hi, rfl⟩ | ⟨i, hi, rfl⟩)
      · exact Or.inl ⟨i, (hrange _ i).mp hi, rfl⟩
      · exact Or.inr ⟨i, (hrange _ i).mp hi, rfl⟩
    · rintro (⟨i, hi, rfl⟩ | ⟨i, hi, rfl⟩)
      · exact Or.inl ⟨i, (hrange _ i).mpr hi, rfl⟩
      · exact Or.inr ⟨i, (hrange _ i).mpr hi, rfl⟩
  constructor
  · -- no duplicates
    rw [hdecomp]
    apply nodup_filterMap_of_inj
    · rw [List.nodup_append]
      refine ⟨?_, ?_, ?_⟩
      · refine List.Nodup.map (fun a b hab => congrArg DirectedEdge.index hab) ?_
        exact List.nodup_range' _ _
      · refine List.Nodup.map (fun a b hab => congrArg DirectedEdge.index hab) ?_
        exact List.nodup_range' _ _
      · intro de hdeA hdeB
        obtain ⟨i, -, rfl⟩ := List.mem_map.mp hdeA
        obtain ⟨i', -, heq⟩ := List.mem_map.mp hdeB
        exact hFneR (congrArg DirectedEdge.«from» heq).symm
    · intro a ha a' ha' k hfa hfa'
      rcases (hchainmem a).mp ha with ⟨i, ⟨h1, h2⟩, rfl⟩ | ⟨i, ⟨h1, h2⟩, rfl⟩ <;>
        rcases (hchainmem a').mp ha' with ⟨i', ⟨h1', h2'⟩, rfl⟩ | ⟨i', ⟨h1', h2'⟩, rfl⟩
      · obtain ⟨hii, -⟩ :=
          incident_unique wf (Or.inl rfl) (Or.inl rfl) hn h1 h2 h1' h2' hfa hfa'
        rw [hii]
      · obtain ⟨hii, hdd⟩ :=
          incident_unique wf (Or.inl rfl) (Or.inr rfl) hn h1 h2 h1' h2' hfa hfa'
        exact absurd hdd hFneR
      · obtain ⟨hii, hdd⟩ :=
          incident_unique wf (Or.inr rfl) (Or.inl rfl) hn h1 h2 h1' h2' hfa hfa'
        exact absurd hdd.symm hFneR
      · obtain ⟨hii, -⟩ :=
          incident_unique wf (Or.inr rfl) (Or.inr rfl) hn h1 h2 h1' h2' hfa hfa'
        rw [hii]
  · -- membership
    intro k
    rw [hdecomp, List.mem_filterMap]
    constructor
    · rintro ⟨de, hde, hfde⟩
      rcases (hchainmem de).mp hde with ⟨i, ⟨h1, h2⟩, rfl⟩ | ⟨i, ⟨h1, h2⟩, rfl⟩
      · obtain ⟨ej, ed, hj, hd, hcase⟩ := incident_analyze wf (by omega) h1 h2 hfde
        rcases hcase with ⟨-, hdneq⟩ | ⟨-, hdneq, -⟩
        · exact ⟨ej, hj, Or.inl (side_of_from_bidirected_eq hdneq)⟩
        · rw [fdr_eq] at hdneq
          exact ⟨ej, hj, Or.inr (side_of_from_bidirected_eq hdneq)⟩
      · obtain ⟨ej, ed, hj, hd, hcase⟩ := incident_analyze wf (by omega) h1 h2 hfde
        rcases hcase with ⟨-, hdneq⟩ | ⟨-, hdneq, -⟩
        · exact ⟨ej, hj, Or.inl (side_of_from_bidirected_eq hdneq)⟩
        · rw [fdr_eq] at hdneq
          exact ⟨ej, hj, Or.inr (side_of_from_bidirected_eq hdneq)⟩
    · rintro ⟨ej, hj, hside⟩
      have hklt : k < edges.length := lt_length_of_getElem? hj
      obtain ⟨ej', ed, hj', hd⟩ := new_edge_data_exists wf hklt
      have hej : ej' = ej := by rw [hj] at hj'; exact (Option.some_inj.mp hj').symm
      subst hej
      obtain ⟨-, hf1, hf2, hr1, hr2, -, -, -, -, -⟩ := new_entry wf hj hd
      by_cases hfrom : ej'.«from» = n
      · refine ⟨⟨from_directed_forward ej',
          getAt (BidirectedAdjacencyArray.new nodes edges).edge_array ed.forward,
          ed.forward⟩, ?_, incidentFilter_forward wf hj hd⟩
        apply (hchainmem _).mpr
        have hside_eq : from_directed_forward ej' =
            DirectedNodeIndex.from_bidirected n ej'.from_forward := by
          rw [from_directed_forward, hfrom]
        cases hb : ej'.from_forward
        · refine Or.inr ⟨ed.forward, ?_, ?_⟩
          · rw [hside_eq, hb] at hf1 hf2
            exact ⟨hf1, hf2⟩
          · rw [hside_eq, hb]
        · refine Or.inl ⟨ed.forward, ?_, ?_⟩
          · rw [hside_eq, hb] at hf1 hf2
            exact ⟨hf1, hf2⟩
          · rw [hside_eq, hb]
      · have hto : ej'.«to» = n := hside.resolve_left hfrom
        have hne : ej'.«from» ≠ ej'.«to» := by rw [hto]; exact hfrom
        refine ⟨⟨from_directed_reverse ej',
          getAt (BidirectedAdjacencyArray.new nodes edges).edge_array ed.reverse,
          ed.reverse⟩, ?_, ?_⟩
        · apply (hchainmem _).mpr
          have hside_eq : from_directed_reverse ej' =
              DirectedNodeIndex.from_bidirected n (!ej'.to_forward) := by
            rw [fdr_eq, hto]
          cases hb : ej'.to_forward
          · refine Or.inl ⟨ed.reverse, ?_, ?_⟩
            · rw [hside_eq, hb] at hr1 hr2
              exact ⟨hr1, hr2⟩
            · rw [hside_eq, hb, Bool.not_false]
          · refine Or.inr ⟨ed.reverse, ?_, ?_⟩
            · rw [hside_eq, hb] at hr1 hr2
              exact ⟨hr1, hr2⟩
            · rw [hside_eq, hb, Bool.not_true]
        · rw [incidentFilter_reverse wf hj hd, if_neg hne]

theorem iter_incident_edges_exact_witness :
    ((@BidirectedAdjacencyArray.new Unit Unit [(), ()]
        [⟨0, true, 1, true, ()⟩]).iter_incident_edges 0).Nodup ∧
    ∀ k, k ∈ (@BidirectedAdjacencyArray.new Unit Unit [(), ()]
        [⟨0, true, 1, true, ()⟩]).iter_incident_edges 0 ↔
      ∃ ej : BidirectedEdge Unit,
        ([⟨0, true, 1, true, ()⟩] : List (BidirectedEdge Unit))[k]? = some ej ∧
        (ej.«from» = 0 ∨ ej.«to» = 0) :=
  iter_incident_edges_exact (by decide) (by decide)

/-! ### The GFA1 adapter -/

theorem runLines_append (st : GfaReaderState) (xs ys : List (List Char)) :
    runLines st (xs ++ ys) =
      match runLines st xs with
      | .ok st' => runLines st' ys
      | .error e => .error e := by
  induction xs generalizing st with
  | nil => rfl
  | cons x xs ih =>
    simp only [List.cons_append, runLines]
    cases hp : processLine st x with
    | ok st' =>
      simp only [hp]
      exact ih st'
    | error e =>
      simp only [hp]

/-- Processing an `L` line whose first failing lookup is an undefined
node name produces exactly the `UnknownNodeName` error. -/
theorem processLine_undefined (st : GfaReaderState) (l : List Char) (name : List Char)
    (hL : (splitOnChar '\t' (rustTrim l)).head? = some ['L'])
    (hname : lLineUndefinedName st (splitOnChar '\t' (rustTrim l)) name) :
    processLine st l = .error (.UnknownNodeName name) := by
  rw [processLine]
  simp only [hL]
  rw [if_neg (by decide), if_neg (by decide), if_pos (by trivial)]
  rcases hname with ⟨hget1, hlookup⟩ | ⟨fn, fromNode, hget1, hlookup, hsign, hget3, hlookup3⟩
  · rw [List.get?_eq_getElem?] at hget1
    simp [hget1, hlookup]
  · rw [List.get?_eq_getElem?] at hget1 hget3
    rcases hsign with hs | hs <;> rw [List.get?_eq_getElem?] at hs <;>
      simp [hget1, hlookup, hs, hget3, hlookup3]

/-- C9 counterexample to the claim's unconditional form: in this input
the `L` line references the name `x`, which no `S` line defines, and the
line's earlier fields are well-formed; yet `read_gfa1` fails with
`MissingSequenceNameInSLine`, because a preceding malformed `S` line
errors first. -/
theorem undefined_name_needs_clean_prefix :
    (splitOnChar '\t' (rustTrim "L\tx\t+\ty\t+\t0M".toList)).head? = some ['L'] ∧
    lLineUndefinedName gfaStartState
      (splitOnChar '\t' (rustTrim "L\tx\t+\ty\t+\t0M".toList)) ['x'] ∧
    read_gfa1 "S\nL\tx\t+\ty\t+\t0M\n".toList =
      Except.error GfaReadError.MissingSequenceNameInSLine ∧
    read_gfa1 "S\nL\tx\t+\ty\t+\t0M\n".toList ≠
      Except.error (GfaReadError.UnknownNodeName ['x']) :=
  ⟨by decide, Or.inl ⟨by decide, by decide⟩, by decide, by decide⟩

/-- C9 (amended): if the input's lines split as `pre ++ l :: post` where
every line of `pre` parses without error (reaching state `st`) and `l` is
an `L` line whose first failing name lookup is a node name undefined in
`st`, the line's earlier fields being well-formed, then `read_gfa1` fails
with exactly the `UnknownNodeName` condition carrying that name — not an
I/O error and not any other parse-error condition — whatever the
remaining lines `post` are (their reading is aborted). -/
theorem undefined_name_error (text : List Char) (pre post : List (List Char))
    (l name : List Char) (st : GfaReaderState)
    (hsplit : rustLines text = pre ++ l :: post)
    (hpre : runLines gfaStartState pre = Except.ok st)
    (hL : (splitOnChar '\t' (rustTrim l)).head? = some ['L'])
    (hname : lLineUndefinedName st (splitOnChar '\t' (rustTrim l)) name) :
    read_gfa1 text = Except.error (GfaReadError.UnknownNodeName name) := by
  have hline := processLine_undefined st l name hL hname
  rw [read_gfa1, hsplit, runLines_append, hpre]
  simp only [runLines, hline]

/-- C9 witness: a concrete two-line input whose `L` line references the
undefined name `z`. -/
theorem undefined_name_error_witness :
    read_gfa1 "S\ta\t0\nL\ta\t+\tz\t+\t0M\n".toList =
      Except.error (GfaReadError.UnknownNodeName ['z']) :=
  undefined_name_error "S\ta\t0\nL\ta\t+\tz\t+\t0M\n".toList
    ["S\ta\t0".toList] [] "L\ta\t+\tz\t+\t0M".toList ['z']
    ⟨[(['a'], 0)], [⟨['a'], ['0']⟩], [], false⟩
    (by decide) (by decide) (by decide)
    (Or.inr ⟨['a'], 0, by decide, by decide, Or.inl (by decide), by decide, by decide⟩)

/-- Evaluation of the reader's default overlap field. -/
theorem parseU16_default_overlap :
    (parseU16 (trimEndMatches 'M' ('0' :: ['M']))).getD 0 = 0 := by decide

/-- C10 counterexample to the claim's whole-read form: the `L` line has
all four endpoint fields valid and a malformed overlap field `xyzM`, and
processing it succeeds with overlap 0, yet `read_gfa1` on the whole text
fails, because a later wrongly positioned header line errors. -/
theorem malformed_overlap_read_can_still_fail :
    parseU16 (trimEndMatches 'M' "xyzM".toList) = none ∧
    runLines gfaStartState ["S\ta\t0".toList, "L\ta\t+\ta\t+\txyzM".toList] =
      Except.ok ⟨[(['a'], 0)], [⟨['a'], ['0']⟩], [⟨0, true, 0, true, ⟨0⟩⟩], false⟩ ∧
    read_gfa1 "S\ta\t0\nL\ta\t+\ta\t+\txyzM\nH\tVN:Z:1.0\n".toList =
      Except.error GfaReadError.WronglyPositionedHeader := by decide

/-- C10 (amended): processing an `L` line whose four endpoint fields are
valid and whose overlap field is either absent or present but malformed
(not parseable as a decimal `u16` after stripping trailing `M`s) does not
fail: the edge is silently created with overlap 0, the same value used in
both cases. -/
theorem malformed_overlap_defaults_to_zero (st : GfaReaderState) (l : List Char)
    (fromNode toNode : Nat) (from_name to_name : List Char) (ff tf : Bool)
    (hL : (splitOnChar '\t' (rustTrim l)).head? = some ['L'])
    (h1 : (splitOnChar '\t' (rustTrim l)).get? 1 = some from_name)
    (hf : lookupName st.node_name_to_node from_name = some fromNode)
    (h2 : (splitOnChar '\t' (rustTrim l)).get? 2 = some (signOf ff))
    (h3 : (splitOnChar '\t' (rustTrim l)).get? 3 = some to_name)
    (ht : lookupName st.node_name_to_node to_name = some toNode)
    (h4 : (splitOnChar '\t' (rustTrim l)).get? 4 = some (signOf tf))
    (h5 : (splitOnChar '\t' (rustTrim l)).get? 5 = none ∨
      (∃ ovf, (splitOnChar '\t' (rustTrim l)).get? 5 = some ovf ∧
        parseU16 (trimEndMatches 'M' ovf) = none)) :
    processLine st l = Except.ok
      { st with
        edges := st.edges ++ [⟨fromNode, ff, toNode, tf, ⟨0⟩⟩]
        is_header_allowed := false } := by
  rw [processLine]
  simp only [hL]
  rw [if_neg (by decide), if_neg (by decide), if_pos (by trivial)]
  rw [List.get?_eq_getElem?] at h1 h2 h3 h4
  rcases h5 with h5 | ⟨ovf, h5, hbad⟩ <;> rw [List.get?_eq_getElem?] at h5
  · cases ff <;> cases tf <;>
      simp [h1, hf, h2, h3, ht, h4, h5, signOf, parseU16_default_overlap]
  · cases ff <;> cases tf <;>
      simp [h1, hf, h2, h3, ht, h4, h5, hbad, signOf]

/-- C10 witness: a concrete `L` line with malformed overlap `12.5M`
appends the edge with overlap 0. -/
theorem malformed_overlap_defaults_to_zero_witness :
    processLine ⟨[(['a'], 0)], [⟨['a'], ['0']⟩], [], false⟩ "L\ta\t+\ta\t-\t12.5M".toList =
      Except.ok ⟨[(['a'], 0)], [⟨['a'], ['0']⟩], [⟨0, true, 0, false, ⟨0⟩⟩], false⟩ :=
  malformed_overlap_defaults_to_zero ⟨[(['a'], 0)], [⟨['a'], ['0']⟩], [], false⟩
    "L\ta\t+\ta\t-\t12.5M".toList 0 0 ['a'] ['a'] true false
    (by decide) (by decide) (by decide) (by decide) (by decide) (by decide) (by decide)
    (Or.inr ⟨"12.5M".toList, by decide, by decide⟩)

/-! ### String lemmas for the GFA1 round trip -/

theorem splitOnChar_ne_nil (c : Char) (l : List Char) : splitOnChar c l ≠ [] := by
  cases l with
  | nil => simp [splitOnChar]
  | cons x xs =>
    simp only [splitOnChar]
    cases h : splitOnChar c xs with
    | nil => simp
    | cons r rs => by_cases hx : x = c <;> simp [hx]

theorem splitOnChar_no_occ (c : Char) (l : List Char) (h : c ∉ l) :
    splitOnChar c l = [l] := by
  induction l with
  | nil => rfl
  | cons x xs ih =>
    have hx : x ≠ c := fun hxc => h (hxc ▸ List.mem_cons_self x xs)
    have hxs : c ∉ xs := fun hm => h (List.mem_cons_of_mem x hm)
    simp only [splitOnChar, ih hxs]
    simp [hx]

theorem splitOnChar_append (c : Char) (l rest : List Char) (h : c ∉ l) :
    splitOnChar c (l ++ c :: rest) = l :: splitOnChar c rest := by
  induction l with
  | nil =>
    simp only [List.nil_append, splitOnChar]
    cases hsp : splitOnChar c rest with
    | nil => exact absurd hsp (splitOnChar_ne_nil c rest)
    | cons r rs => simp
  | cons x xs ih =>
    have hx : x ≠ c := fun hxc => h (hxc ▸ List.mem_cons_self x xs)
    have hxs : c ∉ xs := fun hm => h (List.mem_cons_of_mem x hm)
    rw [List.cons_append]
    simp only [splitOnChar]
    rw [ih hxs]
    simp [hx]

theorem unlines_cons (x : List Char) (xs : List (List Char)) :
    unlines (x :: xs) = x ++ '\n' :: unlines xs := by
  simp [unlines]

theorem splitOnChar_unlines (ls : List (List Char)) (h : ∀ l ∈ ls, '\n' ∉ l) :
    splitOnChar '\n' (unlines ls) = ls ++ [[]] := by
  induction ls with
  | nil => rfl
  | cons x xs ih =>
    rw [unlines_cons, splitOnChar_append '\n' x (unlines xs) (h x (List.mem_cons_self x xs)),
      ih (fun l hl => h l (List.mem_cons_of_mem x hl))]
    rfl

theorem stripCR_eq_self (l : List Char) (h : l.getLast? ≠ some '\r') : stripCR l = l := by
  rw [stripCR, if_neg h]

theorem rustLines_unlines (ls : List (List Char)) (h1 : ∀ l ∈ ls, '\n' ∉ l)
    (h2 : ∀ l ∈ ls, l.getLast? ≠ some '\r') : rustLines (unlines ls) = ls := by
  simp only [rustLines, splitOnChar_unlines ls h1]
  rw [if_pos (List.getLast?_concat ls), List.dropLast_concat]
  calc ls.map stripCR = ls.map id :=
        List.map_congr_left (fun l hl => stripCR_eq_self l (h2 l hl))
    _ = ls := List.map_id ls

theorem dropWhile_eq_self_of_head (p : Char → Bool) (l : List Char)
    (h : ∀ c, l.head? = some c → p c = false) : l.dropWhile p = l := by
  cases l with
  | nil => rfl
  | cons x xs =>
    rw [List.dropWhile_cons, h x rfl]
    simp

theorem rustTrim_eq_self (l : List Char)
    (hh : ∀ c, l.head? = some c → c.isWhitespace = false)
    (hl : lastIsWhitespace l = false) : rustTrim l = l := by
  rw [rustTrim, dropWhile_eq_self_of_head _ _ hh, dropWhile_eq_self_of_head, List.reverse_reverse]
  intro c hc
  rw [List.head?_reverse] at hc
  simp [lastIsWhitespace, hc] at hl
  exact hl

theorem rustTrim_concat_tab (l : List Char) (hne : l ≠ [])
    (hh : ∀ c, l.head? = some c → c.isWhitespace = false)
    (hl : lastIsWhitespace l = false) : rustTrim (l ++ ['\t']) = l := by
  have hstep : (l ++ ['\t']).dropWhile Char.isWhitespace = l ++ ['\t'] := by
    apply dropWhile_eq_self_of_head
    intro c hc
    cases l with
    | nil => exact absurd rfl hne
    | cons x xs =>
      have : c = x := by simpa using hc.symm
      exact this ▸ hh x rfl
  rw [rustTrim, hstep, List.reverse_append]
  have htab : (['\t'] : List Char).reverse ++ l.reverse = '\t' :: l.reverse := rfl
  rw [htab, List.dropWhile_cons]
  have : Char.isWhitespace '\t' = true := by decide
  rw [this, if_pos rfl, dropWhile_eq_self_of_head, List.reverse_reverse]
  intro c hc
  rw [List.head?_reverse] at hc
  simp [lastIsWhitespace, hc] at hl
  exact hl

theorem joinTabs_ne_nil (fs : List (List Char)) (g : List Char) (hg : g ≠ []) :
    joinTabs (fs ++ [g]) ≠ [] := by
  cases fs with
  | nil => simpa [joinTabs] using hg
  | cons f rest =>
    cases rest with
    | nil => simp [joinTabs]
    | cons f2 rest2 => simp [joinTabs]

theorem joinTabs_head? (f : List Char) (rest : List (List Char)) (hf : f ≠ []) :
    (joinTabs (f :: rest)).head? = f.head? := by
  cases rest with
  | nil => rfl
  | cons g rest2 =>
    show (f ++ '\t' :: joinTabs (g :: rest2)).head? = f.head?
    cases f with
    | nil => exact absurd rfl hf
    | cons a as => rfl

theorem joinTabs_getLast? (fs : List (List Char)) (g : List Char) (hg : g ≠ []) :
    (joinTabs (fs ++ [g])).getLast? = g.getLast? := by
  induction fs with
  | nil => rfl
  | cons f rest ih =>
    have hne : joinTabs (rest ++ [g]) ≠ [] := joinTabs_ne_nil rest g hg
    have hshape : joinTabs ((f :: rest) ++ [g]) = f ++ '\t' :: joinTabs (rest ++ [g]) := by
      cases rest with
      | nil => rfl
      | cons f2 rest2 => rfl
    rw [hshape, List.getLast?_append_of_ne_nil f (by simp)]
    cases hjt : joinTabs (rest ++ [g]) with
    | nil => exact absurd hjt hne
    | cons b bs =>
      rw [List.getLast?_cons_cons, ← hjt, ih]

theorem splitOnChar_joinTabs (fs : List (List Char)) (h : ∀ f ∈ fs, '\t' ∉ f)
    (hne : fs ≠ []) : splitOnChar '\t' (joinTabs fs) = fs := by
  induction fs with
  | nil => exact absurd rfl hne
  | cons f rest ih =>
    cases rest with
    | nil => exact splitOnChar_no_occ '\t' f (h f (List.mem_cons_self f []))
    | cons g rest2 =>
      show splitOnChar '\t' (f ++ '\t' :: joinTabs (g :: rest2)) = f :: g :: rest2
      rw [splitOnChar_append '\t' f _ (h f (List.mem_cons_self f _)),
        ih (fun x hx => h x (List.mem_cons_of_mem f hx)) (by simp)]

theorem digitChar_isDigit {m : Nat} (h : m < 10) : (digitChar m).isDigit = true := by
  interval_cases m <;> decide

theorem digitChar_toNat {m : Nat} (h : m < 10) :
    (digitChar m).toNat = '0'.toNat + m := by
  interval_cases m <;> decide

theorem toDecimalAux_spec : ∀ (fuel n : Nat), n < fuel →
    toDecimalAux fuel n ≠ [] ∧ (toDecimalAux fuel n).all Char.isDigit = true ∧
    ∀ acc, (toDecimalAux fuel n).foldl
        (fun acc c => acc * 10 + (c.toNat - '0'.toNat)) acc =
      acc * 10 ^ (toDecimalAux fuel n).length + n := by
  intro fuel
  induction fuel with
  | zero => intro n hn; exact absurd hn (Nat.not_lt_zero n)
  | succ fuel ih =>
    intro n hn
    by_cases h10 : n < 10
    · rw [toDecimalAux, if_pos h10]
      refine ⟨by simp, by simp [digitChar_isDigit h10], ?_⟩
      intro acc
      simp only [List.foldl_cons, List.foldl_nil, List.length_cons, List.length_nil]
      rw [digitChar_toNat h10]
      simp [pow_succ]
    · rw [toDecimalAux, if_neg h10]
      have hdivlt : n / 10 < fuel := by omega
      obtain ⟨ihne, ihall, ihfold⟩ := ih (n / 10) hdivlt
      have hmod : n % 10 < 10 := Nat.mod_lt n (by omega)
      refine ⟨by simp, ?_, ?_⟩
      · rw [List.all_append, ihall]
        simp [digitChar_isDigit hmod]
      · intro acc
        rw [List.foldl_append, ihfold acc]
        simp only [List.foldl_cons, List.foldl_nil, List.length_append,
          List.length_cons, List.length_nil]
        rw [digitChar_toNat hmod]
        have hpow : 10 ^ ((toDecimalAux fuel (n / 10)).length + (0 + 1)) =
            10 ^ (toDecimalAux fuel (n / 10)).length * 10 := by
          rw [Nat.add_comm 0 1, pow_succ]
        rw [hpow]
        have hsub : '0'.toNat + n % 10 - '0'.toNat = n % 10 := by omega
        rw [hsub]
        have hK : (acc * 10 ^ (toDecimalAux fuel (n / 10)).length + n / 10) * 10 + n % 10 =
            acc * (10 ^ (toDecimalAux fuel (n / 10)).length * 10) +
              (10 * (n / 10) + n % 10) := by ring
        rw [hK, Nat.div_add_mod]

theorem toDecimal_spec (n : Nat) :
    toDecimal n ≠ [] ∧ (toDecimal n).all Char.isDigit = true ∧
    (toDecimal n).foldl (fun acc c => acc * 10 + (c.toNat - '0'.toNat)) 0 = n := by
  obtain ⟨h1, h2, h3⟩ := toDecimalAux_spec (n + 1) n (Nat.lt_succ_self n)
  exact ⟨h1, h2, by simpa using h3 0⟩

theorem toDecimal_mem_isDigit {n : Nat} {c : Char} (h : c ∈ toDecimal n) :
    c.isDigit = true :=
  List.all_eq_true.mp (toDecimal_spec n).2.1 c h

theorem parseU16_toDecimal {n : Nat} (h : n < 65536) :
    parseU16 (toDecimal n) = some n := by
  obtain ⟨h1, h2, h3⟩ := toDecimal_spec n
  rw [parseU16]
  have hhead : ((toDecimal n).head? = some '+') = False := by
    simp only [eq_iff_iff, iff_false]
    intro hc
    cases hd : toDecimal n with
    | nil => rw [hd] at hc; exact Option.noConfusion hc
    | cons x xs =>
      rw [hd] at hc
      have hx : x = '+' := by simpa using hc
      have : x.isDigit = true := by
        apply List.all_eq_true.mp h2
        rw [hd]; exact List.mem_cons_self x xs
      rw [hx] at this
      exact absurd this (by decide)
  simp only [hhead, if_false]
  rw [if_neg h1, if_pos h2, h3, if_pos h]

theorem trimEndMatches_toDecimal (n : Nat) :
    trimEndMatches 'M' (toDecimal n ++ ['M']) = toDecimal n := by
  obtain ⟨h1, -, -⟩ := toDecimal_spec n
  rw [trimEndMatches, List.reverse_append]
  have hM : (['M'] : List Char).reverse ++ (toDecimal n).reverse =
      'M' :: (toDecimal n).reverse := rfl
  rw [hM, List.dropWhile_cons]
  have hMtrue : (('M' : Char) = 'M' : Bool) = true := by decide
  rw [hMtrue, if_pos rfl, dropWhile_eq_self_of_head, List.reverse_reverse]
  intro c hc
  rw [List.head?_reverse] at hc
  have hcm : c ∈ toDecimal n := List.mem_of_getLast?_eq_some hc
  have hdig := toDecimal_mem_isDigit hcm
  have : c ≠ 'M' := by
    intro he; rw [he] at hdig; exact absurd hdig (by decide)
  simpa using this

/-! ### The reader on the writer's `S` lines -/

theorem lookup_addNames_skip (q : List Char) :
    ∀ (ns : List PlainGfaNodeData) (base : Nat) (m : List (List Char × Nat)),
    (∀ nd ∈ ns, nd.name ≠ q) → lookupName (addNames base ns m) q = lookupName m q := by
  intro ns
  induction ns with
  | nil => intro base m h; rfl
  | cons nd rest ih =>
    intro base m h
    rw [addNames, ih (base + 1) ((nd.name, base) :: m)
      (fun x hx => h x (List.mem_cons_of_mem nd hx))]
    rw [lookupName, if_neg (h nd (List.mem_cons_self nd rest))]

theorem lookup_addNames :
    ∀ (ns : List PlainGfaNodeData), (ns.map (fun nd => nd.name)).Nodup →
    ∀ (i base : Nat) (m : List (List Char × Nat)) (nd : PlainGfaNodeData),
    ns[i]? = some nd → (∀ p ∈ m, p.1 ≠ nd.name) →
    lookupName (addNames base ns m) nd.name = some (base + i) := by
  intro ns
  induction ns with
  | nil => intro _ i base m nd hnd; exact absurd hnd (by simp)
  | cons x rest ih =>
    intro hnodup i base m nd hnd hm
    have hx_notin : x.name ∉ rest.map (fun nd => nd.name) :=
      (List.nodup_cons.mp hnodup).1
    have hrest_nodup : (rest.map (fun nd => nd.name)).Nodup :=
      (List.nodup_cons.mp hnodup).2
    cases i with
    | zero =>
      have hxnd : x = nd := by simpa using hnd
      subst hxnd
      rw [addNames, lookup_addNames_skip x.name rest (base + 1) ((x.name, base) :: m)
        (fun y hy hyx => hx_notin (hyx ▸ List.mem_map_of_mem (fun nd => nd.name) hy))]
      rw [lookupName, if_pos rfl, Nat.add_zero]
    | succ j =>
      have hjd : rest[j]? = some nd := by simpa using hnd
      have hmem : nd ∈ rest := mem_of_getElem? hjd
      have hxname : x.name ≠ nd.name := by
        intro he
        exact hx_notin (he ▸ List.mem_map_of_mem (fun nd => nd.name) hmem)
      rw [addNames, ih hrest_nodup j (base + 1) ((x.name, base) :: m) nd hjd ?side]
      · rw [Nat.add_assoc, Nat.add_comm 1 j]
      case side =>
        intro p hp
        rcases List.mem_cons.mp hp with rfl | hpm
        · exact hxname
        · exact hm p hpm

theorem processLine_sLine (st : GfaReaderState) (nd : PlainGfaNodeData)
    (hgood : goodNode nd) :
    processLine st (sLineOf nd) = Except.ok
      { st with
        node_name_to_node := (nd.name, st.nodes.length) :: st.node_name_to_node
        nodes := st.nodes ++ [nd]
        is_header_allowed := false } := by
  obtain ⟨hnt, hnn, hst, hsn, hsw, hempty⟩ := hgood
  by_cases hseq : nd.sequence = []
  · obtain ⟨hne, hnw⟩ := hempty hseq
    have hjt : sLineOf nd = ('S' :: '\t' :: nd.name) ++ ['\t'] := by
      rw [sLineOf, hseq]
      simp
    have hhead : ∀ c, ('S' :: '\t' :: nd.name).head? = some c → c.isWhitespace = false := by
      intro c hc
      have hcS : c = 'S' := by simpa using hc.symm
      rw [hcS]
      decide
    have hlast : lastIsWhitespace ('S' :: '\t' :: nd.name) = false := by
      have hview : ('S' :: '\t' :: nd.name) = joinTabs ([['S']] ++ [nd.name]) := rfl
      rw [lastIsWhitespace, hview, joinTabs_getLast? [['S']] nd.name hne]
      rw [lastIsWhitespace] at hnw
      exact hnw
    have htrim : rustTrim (sLineOf nd) = 'S' :: '\t' :: nd.name := by
      rw [hjt]
      exact rustTrim_concat_tab _ (by simp) hhead hlast
    have hfields : splitOnChar '\t' (rustTrim (sLineOf nd)) = [['S'], nd.name] := by
      rw [htrim]
      have hview : ('S' :: '\t' :: nd.name) = joinTabs [['S'], nd.name] := rfl
      rw [hview]
      apply splitOnChar_joinTabs
      · intro f hf
        rcases List.mem_cons.mp hf with rfl | hf2
        · decide
        · rcases List.mem_cons.mp hf2 with rfl | hf3
          · exact hnt
          · exact absurd hf3 (List.not_mem_nil f)
      · simp
    have hndeta : (⟨nd.name, nd.sequence⟩ : PlainGfaNodeData) = nd := rfl
    rw [processLine, hfields]
    simp only [List.head?_cons]
    rw [if_neg (by decide), if_pos (by trivial)]
    simp only [List.get?_cons_succ, List.get?_cons_zero, List.get?_nil]
    rw [← hndeta, hseq]
    rfl
  · have hhead : ∀ c, (sLineOf nd).head? = some c → c.isWhitespace = false := by
      intro c hc
      rw [sLineOf] at hc
      have hcS : c = 'S' := by simpa using hc.symm
      rw [hcS]
      decide
    have hlast : lastIsWhitespace (sLineOf nd) = false := by
      have hview : sLineOf nd = joinTabs ([['S'], nd.name] ++ [nd.sequence]) := rfl
      rw [lastIsWhitespace, hview, joinTabs_getLast? [['S'], nd.name] nd.sequence hseq]
      rw [lastIsWhitespace] at hsw
      exact hsw
    have htrim : rustTrim (sLineOf nd) = sLineOf nd :=
      rustTrim_eq_self _ hhead hlast
    have hfields : splitOnChar '\t' (rustTrim (sLineOf nd)) =
        [['S'], nd.name, nd.sequence] := by
      rw [htrim]
      have hview : sLineOf nd = joinTabs [['S'], nd.name, nd.sequence] := rfl
      rw [hview]
      apply splitOnChar_joinTabs
      · intro f hf
        rcases List.mem_cons.mp hf with rfl | hf2
        · decide
        · rcases List.mem_cons.mp hf2 with rfl | hf3
          · exact hnt
          · rcases List.mem_cons.mp hf3 with rfl | hf4
            · exact hst
            · exact absurd hf4 (List.not_mem_nil f)
      · simp
    have hndeta : (⟨nd.name, nd.sequence⟩ : PlainGfaNodeData) = nd := rfl
    rw [processLine, hfields]
    simp only [List.head?_cons]
    rw [if_neg (by decide), if_pos (by trivial)]
    simp only [List.get?_cons_succ, List.get?_cons_zero, List.get?_nil]
    rw [← hndeta]
    rfl

theorem runLines_sList :
    ∀ (ns : List PlainGfaNodeData), (∀ nd ∈ ns, goodNode nd) →
    ∀ (m : List (List Char × Nat)) (nds : List PlainGfaNodeData)
      (es : List (BidirectedEdge PlainGfaEdgeData)),
    runLines ⟨m, nds, es, false⟩ (ns.map sLineOf) =
      Except.ok ⟨addNames nds.length ns m, nds ++ ns, es, false⟩ := by
  intro ns
  induction ns with
  | nil => intro h m nds es; simp [runLines, addNames]
  | cons nd rest ih =>
    intro h m nds es
    have hstep := processLine_sLine ⟨m, nds, es, false⟩ nd (h nd (List.mem_cons_self nd rest))
    rw [List.map_cons, runLines, hstep]
    show runLines ⟨(nd.name, nds.length) :: m, nds ++ [nd], es, false⟩
        (rest.map sLineOf) = _
    rw [ih (fun x hx => h x (List.mem_cons_of_mem nd hx)) ((nd.name, nds.length) :: m)
      (nds ++ [nd]) es]
    have hlen : (nds ++ [nd]).length = nds.length + 1 := by simp
    rw [hlen, List.append_assoc]
    rfl

/-! ### The reader on the writer's `L` lines -/

theorem signOf_tab_free (b : Bool) : '\t' ∉ signOf b := by
  cases b <;> decide

theorem processLine_lLine (st : GfaReaderState) (nodesRef : List PlainGfaNodeData)
    (ej : BidirectedEdge PlainGfaEdgeData) (ndf ndt : PlainGfaNodeData)
    (hf : nodesRef[ej.«from»]? = some ndf)
    (hlf : lookupName st.node_name_to_node ndf.name = some ej.«from»)
    (hft : '\t' ∉ ndf.name)
    (ht : nodesRef[ej.«to»]? = some ndt)
    (hlt : lookupName st.node_name_to_node ndt.name = some ej.«to»)
    (htt : '\t' ∉ ndt.name)
    (hov : ej.data.overlap < 65536) :
    processLine st (lLineText nodesRef ej) = Except.ok
      { st with edges := st.edges ++ [ej], is_header_allowed := false } := by
  have hgf : nodesRef.getD ej.«from» default = ndf := getD_eq_of_getElem? hf
  have hgt : nodesRef.getD ej.«to» default = ndt := getD_eq_of_getElem? ht
  have hline : lLineText nodesRef ej = joinTabs [['L'], ndf.name,
      signOf ej.from_forward, ndt.name, signOf ej.to_forward,
      toDecimal ej.data.overlap ++ ['M']] := by
    rw [lLineText, hgf, hgt]
    rfl
  have hdec_tab : '\t' ∉ toDecimal ej.data.overlap ++ ['M'] := by
    intro hm
    rcases List.mem_append.mp hm with hm1 | hm2
    · exact absurd (toDecimal_mem_isDigit hm1) (by decide)
    · have hM : ('\t' : Char) = 'M' := by simpa using hm2
      exact absurd hM (by decide)
  have hhead : ∀ c, (joinTabs [['L'], ndf.name, signOf ej.from_forward, ndt.name,
      signOf ej.to_forward, toDecimal ej.data.overlap ++ ['M']]).head? = some c →
      c.isWhitespace = false := by
    intro c hc
    rw [joinTabs_head? ['L'] _ (by simp)] at hc
    have hcL : c = 'L' := by simpa using hc.symm
    rw [hcL]
    decide
  have hlast : lastIsWhitespace (joinTabs [['L'], ndf.name, signOf ej.from_forward,
      ndt.name, signOf ej.to_forward, toDecimal ej.data.overlap ++ ['M']]) = false := by
    have hview : [['L'], ndf.name, signOf ej.from_forward, ndt.name,
        signOf ej.to_forward, toDecimal ej.data.overlap ++ ['M']] =
        [['L'], ndf.name, signOf ej.from_forward, ndt.name, signOf ej.to_forward] ++
          [toDecimal ej.data.overlap ++ ['M']] := rfl
    rw [lastIsWhitespace, hview, joinTabs_getLast? _ _ (by simp),
      List.getLast?_concat]
    decide
  have htrim : rustTrim (joinTabs [['L'], ndf.name, signOf ej.from_forward, ndt.name,
      signOf ej.to_forward, toDecimal ej.data.overlap ++ ['M']]) =
      joinTabs [['L'], ndf.name, signOf ej.from_forward, ndt.name,
        signOf ej.to_forward, toDecimal ej.data.overlap ++ ['M']] :=
    rustTrim_eq_self _ hhead hlast
  have hfields : splitOnChar '\t' (rustTrim (joinTabs [['L'], ndf.name,
      signOf ej.from_forward, ndt.name, signOf ej.to_forward,
      toDecimal ej.data.overlap ++ ['M']])) =
      [['L'], ndf.name, signOf ej.from_forward, ndt.name, signOf ej.to_forward,
        toDecimal ej.data.overlap ++ ['M']] := by
    rw [htrim]
    apply splitOnChar_joinTabs
    · intro f hf2
      rcases List.mem_cons.mp hf2 with rfl | hf3
      · decide
      · rcases List.mem_cons.mp hf3 with rfl | hf4
        · exact hft
        · rcases List.mem_cons.mp hf4 with rfl | hf5
          · exact signOf_tab_free ej.from_forward
          · rcases List.mem_cons.mp hf5 with rfl | hf6
            · exact htt
            · rcases List.mem_cons.mp hf6 with rfl | hf7
              · exact signOf_tab_free ej.to_forward
              · rcases List.mem_cons.mp hf7 with rfl | hf8
                · exact hdec_tab
                · exact absurd hf8 (List.not_mem_nil f)
    · simp
  obtain ⟨efrom, eff, eto, etf, ed⟩ := ej
  obtain ⟨eov⟩ := ed
  rw [hline, processLine, hfields]
  simp only [List.head?_cons]
  rw [if_neg (by decide), if_neg (by decide), if_pos (by trivial)]
  simp only [List.get?_cons_succ, List.get?_cons_zero]
  cases eff <;> cases etf <;>
    simp [hlf, hlt, signOf, trimEndMatches_toDecimal, parseU16_toDecimal hov]

theorem runLines_lList (nodesRef : List PlainGfaNodeData) (M : List (List Char × Nat))
    (hlook : ∀ (i : Nat) (nd : PlainGfaNodeData), nodesRef[i]? = some nd →
      lookupName M nd.name = some i)
    (htabs : ∀ nd ∈ nodesRef, '\t' ∉ nd.name) :
    ∀ (es : List (BidirectedEdge PlainGfaEdgeData)),
    (∀ ej ∈ es, ej.«from» < nodesRef.length ∧ ej.«to» < nodesRef.length ∧
      ej.data.overlap < 65536) →
    ∀ (nds : List PlainGfaNodeData) (es0 : List (BidirectedEdge PlainGfaEdgeData)),
    runLines ⟨M, nds, es0, false⟩ (es.map (lLineText nodesRef)) =
      Except.ok ⟨M, nds, es0 ++ es, false⟩ := by
  intro es
  induction es with
  | nil => intro h nds es0; simp [runLines]
  | cons ej rest ih =>
    intro h nds es0
    obtain ⟨hef, het, hov⟩ := h ej (List.mem_cons_self ej rest)
    have hfm : nodesRef[ej.«from»]? = some (nodesRef.get ⟨ej.«from», hef⟩) := by
      rw [List.getElem?_eq_getElem hef]
      rfl
    have htm : nodesRef[ej.«to»]? = some (nodesRef.get ⟨ej.«to», het⟩) := by
      rw [List.getElem?_eq_getElem het]
      rfl
    have hstep := processLine_lLine ⟨M, nds, es0, false⟩ nodesRef ej _ _
      hfm (hlook _ _ hfm) (htabs _ (mem_of_getElem? hfm))
      htm (hlook _ _ htm) (htabs _ (mem_of_getElem? htm)) hov
    rw [List.map_cons, runLines, hstep]
    show runLines ⟨M, nds, es0 ++ [ej], false⟩ (rest.map (lLineText nodesRef)) = _
    rw [ih (fun x hx => h x (List.mem_cons_of_mem ej hx)) nds (es0 ++ [ej]),
      List.append_assoc]
    rfl

/-! ### The writer's normal form -/

theorem map_range_eq_map {α β : Type} (l : List α) (f : Nat → β) (g : α → β)
    (h : ∀ (i : Nat) (x : α), l[i]? = some x → f i = g x) :
    (List.range l.length).map f = l.map g := by
  apply List.ext_getElem (by simp)
  intro i h1 h2
  have hi : i < l.length := by simpa using h2
  simp only [List.getElem_map, List.getElem_range]
  exact h i (l.get ⟨i, hi⟩) (by rw [List.getElem?_eq_getElem hi]; rfl)

theorem lLineOf_eq {nodes : List PlainGfaNodeData}
    {edges : List (BidirectedEdge PlainGfaEdgeData)}
    (wf : WellFormedInput nodes edges) {j : Nat} {ej : BidirectedEdge PlainGfaEdgeData}
    (hj : edges[j]? = some ej) :
    lLineOf (BidirectedAdjacencyArray.new nodes edges) j = lLineText nodes ej := by
  obtain ⟨ej2, ed, hj2, hd⟩ := new_edge_data_exists wf (lt_length_of_getElem? hj)
  rw [hj] at hj2
  have hee : ej = ej2 := Option.some_inj.mp hj2
  subst hee
  have hview := new_edge_view wf hj
  have hdata := new_edge_view_data wf hj hd
  simp only [lLineOf, lLineText]
  rw [hview.1, hview.2, hdata]
  simp [from_directed_forward, to_directed_forward, into_bidirected_from_bidirected,
    is_forward_from_bidirected, BidirectedAdjacencyArray.node_payload, new_node_data]

theorem write_gfa1_eq {nodes : List PlainGfaNodeData}
    {edges : List (BidirectedEdge PlainGfaEdgeData)}
    (wf : WellFormedInput nodes edges) :
    write_gfa1 (BidirectedAdjacencyArray.new nodes edges) =
      unlines (gfaHeaderLine ::
        (nodes.map sLineOf ++ edges.map (lLineText nodes))) := by
  rw [write_gfa1]
  have hS : List.map (fun node =>
        sLineOf ((BidirectedAdjacencyArray.new nodes edges).node_payload node))
      (BidirectedAdjacencyArray.new nodes edges).iter_nodes = nodes.map sLineOf := by
    apply map_range_eq_map
    intro i nd hnd
    have hnd2 : nodes[i]? = some nd := hnd
    have hpay : (BidirectedAdjacencyArray.new nodes edges).node_payload i =
        nodes.getD i default := rfl
    rw [hpay, getD_eq_of_getElem? hnd2]
  have hL : List.map (lLineOf (BidirectedAdjacencyArray.new nodes edges))
      (BidirectedAdjacencyArray.new nodes edges).iter_edges =
      edges.map (lLineText nodes) := by
    have hlen : (BidirectedAdjacencyArray.new nodes edges).iter_edges =
        List.range edges.length := by
      rw [BidirectedAdjacencyArray.iter_edges, new_edge_data_length wf]
    rw [hlen]
    apply map_range_eq_map
    intro j ej hj
    exact lLineOf_eq wf hj
  rw [hS, hL, List.cons_append]

theorem getD_mem_or_default {α : Type} (l : List α) (i : Nat) (d : α) :
    l.getD i d ∈ l ∨ l.getD i d = d := by
  by_cases h : i < l.length
  · left
    rw [List.getD_eq_getElem l d h]
    exact List.getElem_mem h
  · right
    rw [List.getD_eq_getElem?_getD, List.getElem?_eq_none (Nat.le_of_not_lt h)]
    rfl

theorem sLine_newline_free {nd : PlainGfaNodeData} (hgood : goodNode nd) :
    '\n' ∉ sLineOf nd := by
  obtain ⟨-, hnn, -, hsn, -, -⟩ := hgood
  intro hm
  rw [sLineOf] at hm
  rcases List.mem_cons.mp hm with h1 | hm2
  · exact absurd h1 (by decide)
  rcases List.mem_cons.mp hm2 with h1 | hm3
  · exact absurd h1 (by decide)
  rcases List.mem_append.mp hm3 with h1 | hm4
  · exact hnn h1
  rcases List.mem_cons.mp hm4 with h1 | hm5
  · exact absurd h1 (by decide)
  · exact hsn hm5

theorem sLine_no_trailing_cr {nd : PlainGfaNodeData} (hgood : goodNode nd) :
    (sLineOf nd).getLast? ≠ some '\r' := by
  obtain ⟨-, -, -, -, hsw, hempty⟩ := hgood
  by_cases hseq : nd.sequence = []
  · have hshape : sLineOf nd = ('S' :: '\t' :: nd.name) ++ ['\t'] := by
      rw [sLineOf, hseq]
      simp
    rw [hshape, List.getLast?_concat]
    decide
  · have hshape : sLineOf nd = joinTabs ([['S'], nd.name] ++ [nd.sequence]) := rfl
    rw [hshape, joinTabs_getLast? [['S'], nd.name] nd.sequence hseq]
    intro hc
    rw [lastIsWhitespace, hc] at hsw
    exact absurd hsw (by decide)

theorem lLine_newline_free {nodesRef : List PlainGfaNodeData}
    {ej : BidirectedEdge PlainGfaEdgeData}
    (hgood : ∀ nd ∈ nodesRef, goodNode nd) :
    '\n' ∉ lLineText nodesRef ej := by
  have hname : ∀ i, '\n' ∉ (nodesRef.getD i default).name := by
    intro i hm
    rcases getD_mem_or_default nodesRef i default with hmem | hdef
    · exact (hgood _ hmem).2.1 hm
    · rw [hdef] at hm
      exact absurd hm (List.not_mem_nil _)
  intro hm
  rw [lLineText] at hm
  rcases List.mem_cons.mp hm with h1 | hm2
  · exact absurd h1 (by decide)
  rcases List.mem_cons.mp hm2 with h1 | hm3
  · exact absurd h1 (by decide)
  rcases List.mem_append.mp hm3 with h1 | hm4
  · exact hname ej.«from» h1
  rcases List.mem_cons.mp hm4 with h1 | hm5
  · exact absurd h1 (by decide)
  rcases List.mem_append.mp hm5 with h1 | hm6
  · revert h1
    cases ej.from_forward <;> decide
  rcases List.mem_cons.mp hm6 with h1 | hm7
  · exact absurd h1 (by decide)
  rcases List.mem_append.mp hm7 with h1 | hm8
  · exact hname ej.«to» h1
  rcases List.mem_cons.mp hm8 with h1 | hm9
  · exact absurd h1 (by decide)
  rcases List.mem_append.mp hm9 with h1 | hm10
  · revert h1
    cases ej.to_forward <;> decide
  rcases List.mem_cons.mp hm10 with h1 | hm11
  · exact absurd h1 (by decide)
  rcases List.mem_append.mp hm11 with h1 | hm12
  · exact absurd (toDecimal_mem_isDigit h1) (by decide)
  · have : ('\n' : Char) = 'M' := by simpa using hm12
    exact absurd this (by decide)

theorem lLine_no_trailing_cr (nodesRef : List PlainGfaNodeData)
    (ej : BidirectedEdge PlainGfaEdgeData) :
    (lLineText nodesRef ej).getLast? ≠ some '\r' := by
  have hshape : lLineText nodesRef ej = joinTabs
      ([['L'], (nodesRef.getD ej.«from» default).name, signOf ej.from_forward,
        (nodesRef.getD ej.«to» default).name, signOf ej.to_forward] ++
        [toDecimal ej.data.overlap ++ ['M']]) := rfl
  rw [hshape, joinTabs_getLast? _ _ (by simp), List.getLast?_concat]
  decide

theorem findNodeMismatch_refl {N E : Type} [DecidableEq N] [Inhabited N]
    (g : BidirectedAdjacencyArray N E) :
    ∀ l : List Nat, findNodeMismatch g g l = none := by
  intro l
  induction l with
  | nil => rfl
  | cons i rest ih =>
    rw [findNodeMismatch, if_neg (fun h => h rfl), ih]

theorem findEdgeMismatch_refl {N E : Type} [DecidableEq E] [Inhabited E]
    (g : BidirectedAdjacencyArray N E) :
    ∀ l : List Nat, findEdgeMismatch g g l = none := by
  intro l
  induction l with
  | nil => rfl
  | cons i rest ih =>
    rw [findEdgeMismatch, if_neg (fun h => h rfl),
      if_neg (fun h => h.elim (fun h2 => h2 rfl) (fun h2 => h2 rfl)), ih]

theorem compare_refl {N E : Type} [DecidableEq N] [DecidableEq E]
    [Inhabited N] [Inhabited E] (g : BidirectedAdjacencyArray N E) :
    g.compare g = Except.ok () := by
  rw [BidirectedAdjacencyArray.compare, if_neg (fun h => h rfl),
    if_neg (fun h => h rfl), findNodeMismatch_refl g, findEdgeMismatch_refl g]

/-- C3 counterexample: a node whose sequence is the single space " "
satisfies the claim's premises (distinct names, no tab or newline in
names or sequences), yet the round trip loses the whitespace-only
sequence — `trim` strips it on readback — and `compare` reports a node
payload mismatch. -/
theorem round_trip_loses_trailing_whitespace :
    WellFormedInput [PlainGfaNodeData.mk ['a'] [' ']]
      ([] : List (BidirectedEdge PlainGfaEdgeData)) ∧
    (([PlainGfaNodeData.mk ['a'] [' ']]).map (fun nd => nd.name)).Nodup ∧
    ('\t' ∉ (['a'] : List Char) ∧ '\n' ∉ (['a'] : List Char) ∧
      '\t' ∉ ([' '] : List Char) ∧ '\n' ∉ ([' '] : List Char)) ∧
    read_gfa1 (write_gfa1 (BidirectedAdjacencyArray.new [PlainGfaNodeData.mk ['a'] [' ']]
      ([] : List (BidirectedEdge PlainGfaEdgeData)))) =
      Except.ok (BidirectedAdjacencyArray.new [PlainGfaNodeData.mk ['a'] []]
        ([] : List (BidirectedEdge PlainGfaEdgeData))) ∧
    (BidirectedAdjacencyArray.new [PlainGfaNodeData.mk ['a'] [' ']]
      ([] : List (BidirectedEdge PlainGfaEdgeData))).compare
      (BidirectedAdjacencyArray.new [PlainGfaNodeData.mk ['a'] []]
        ([] : List (BidirectedEdge PlainGfaEdgeData))) =
      Except.error (GraphComparisonError.NodeDataMismatch 0) := by decide

/-- C3 (amended): for every graph constructed from well-formed input with
pairwise-distinct node names, names and sequences free of tab and
newline, no sequence ending in whitespace, every empty-sequence node
having a nonempty name not ending in whitespace, and every overlap within
`u16` range, writing with `write_gfa1` and reading back with `read_gfa1`
yields a graph that `compare` reports as equal to the original. -/
theorem gfa1_round_trip {nodes : List PlainGfaNodeData}
    {edges : List (BidirectedEdge PlainGfaEdgeData)}
    (wf : WellFormedInput nodes edges)
    (hnames : (nodes.map (fun nd => nd.name)).Nodup)
    (hgood : ∀ nd ∈ nodes, goodNode nd)
    (hov : ∀ ej ∈ edges, ej.data.overlap < 65536) :
    ∃ g2, read_gfa1 (write_gfa1 (BidirectedAdjacencyArray.new nodes edges)) =
        Except.ok g2 ∧
      (BidirectedAdjacencyArray.new nodes edges).compare g2 = Except.ok () := by
  refine ⟨BidirectedAdjacencyArray.new nodes edges, ?_, compare_refl _⟩
  rw [write_gfa1_eq wf]
  have hlines : rustLines (unlines (gfaHeaderLine ::
      (nodes.map sLineOf ++ edges.map (lLineText nodes)))) =
      gfaHeaderLine :: (nodes.map sLineOf ++ edges.map (lLineText nodes)) := by
    apply rustLines_unlines
    · intro l hl
      rcases List.mem_cons.mp hl with rfl | hl2
      · decide
      rcases List.mem_append.mp hl2 with hlS | hlL
      · obtain ⟨nd, hmem, rfl⟩ := List.mem_map.mp hlS
        exact sLine_newline_free (hgood nd hmem)
      · obtain ⟨ej, hmem, rfl⟩ := List.mem_map.mp hlL
        exact lLine_newline_free hgood
    · intro l hl
      rcases List.mem_cons.mp hl with rfl | hl2
      · decide
      rcases List.mem_append.mp hl2 with hlS | hlL
      · obtain ⟨nd, hmem, rfl⟩ := List.mem_map.mp hlS
        exact sLine_no_trailing_cr (hgood nd hmem)
      · obtain ⟨ej, hmem, rfl⟩ := List.mem_map.mp hlL
        exact lLine_no_trailing_cr nodes ej
  have hheader : processLine gfaStartState gfaHeaderLine =
      Except.ok ⟨[], [], [], false⟩ := by decide
  have hlook : ∀ (i : Nat) (nd : PlainGfaNodeData), nodes[i]? = some nd →
      lookupName (addNames 0 nodes []) nd.name = some i := by
    intro i nd hnd
    have h := lookup_addNames nodes hnames i 0 [] nd hnd
      (fun p hp => absurd hp (List.not_mem_nil p))
    simpa using h
  have htabs : ∀ nd ∈ nodes, '\t' ∉ nd.name := fun nd hm => (hgood nd hm).1
  have hconds : ∀ ej ∈ edges, ej.«from» < nodes.length ∧ ej.«to» < nodes.length ∧
      ej.data.overlap < 65536 := by
    intro ej hm
    obtain ⟨h1, h2⟩ := wf ej hm
    exact ⟨h1, h2, hov ej hm⟩
  have hrun : runLines gfaStartState (gfaHeaderLine ::
      (nodes.map sLineOf ++ edges.map (lLineText nodes))) =
      Except.ok ⟨addNames 0 nodes [], nodes, edges, false⟩ := by
    rw [runLines, hheader]
    show runLines ⟨[], [], [], false⟩
        (nodes.map sLineOf ++ edges.map (lLineText nodes)) = _
    rw [runLines_append, runLines_sList nodes hgood [] [] []]
    show runLines ⟨addNames 0 nodes [], nodes, [], false⟩
        (edges.map (lLineText nodes)) = _
    rw [runLines_lList nodes (addNames 0 nodes []) hlook htabs edges hconds nodes []]
    rfl
  rw [read_gfa1, hlines, hrun]

/-- C3 witness: the round trip at a concrete two-node, one-edge graph
satisfying the amended hypotheses. -/
theorem gfa1_round_trip_witness :
    ∃ g2, read_gfa1 (write_gfa1 (BidirectedAdjacencyArray.new
        [PlainGfaNodeData.mk ['a'] ['A', 'C'], PlainGfaNodeData.mk ['b'] []]
        [⟨0, true, 1, false, ⟨3⟩⟩])) = Except.ok g2 ∧
      (BidirectedAdjacencyArray.new
        [PlainGfaNodeData.mk ['a'] ['A', 'C'], PlainGfaNodeData.mk ['b'] []]
        [⟨0, true, 1, false, ⟨3⟩⟩]).compare g2 = Except.ok () :=
  gfa1_round_trip (by decide) (by decide) (by decide) (by decide)
